import Mathlib

/-!
# Verification of the send-to-caldav encoder, extractor and transport

Shallow embedding of the repository's logic:

* `src/lib/caldav.ts` (`CalDavClient`: `checkConnection`, `createEvent`,
  `formatDate`, `formatDateOnly`, `formatDateOnlyExclusive`, `generateIcs`,
  `foldLine`, `escapeText`),
* `src/lib/description.ts` (`truncateText`, the injected extraction scripts
  and their catch-all error handling, the date-suggestion dedup loop).

Strings are embedded as Lean `String`/`List Char`; the UTF-8 byte level
(needed by `foldLine`, which operates on `TextEncoder` output) is embedded
as `List Nat` with each element a byte value.  JavaScript `Date` is embedded
by its ECMA-262 semantics: an instant is a count of seconds on a linear
timeline, and the civil (proleptic-Gregorian) calendar conversions `MakeDay`
/ `YearFromTime` / `MonthFromTime` / `DateFromTime` are embedded as
`daysFromCivil` / `civilFromDays` below.  The timeline origin is taken to be
0000-01-01T00:00:00Z; the JS epoch differs from it by the fixed constant
719528 days, which affects no theorem here because every function under
verification is invariant under shifting the timeline origin.
-/

namespace SendToCaldav

/-! ## Calendar arithmetic (ECMA-262 `Date` semantics, proleptic Gregorian)

These definitions model the calendar conversions performed by the JavaScript
`Date` object, which `caldav.ts` relies on in `formatDate`,
`formatDateOnly` and `formatDateOnlyExclusive`. -/

/-- Gregorian leap-year rule (ECMA-262 `DaysInYear`). -/
def isLeap (y : Nat) : Bool :=
  (y % 4 == 0 && y % 100 != 0) || y % 400 == 0

/-- Number of days in year `y`. -/
def daysInYearN (y : Nat) : Nat :=
  if isLeap y then 366 else 365

/-- Number of days in month `m` (1-12) of year `y`. -/
def monthLen (y m : Nat) : Nat :=
  if m = 2 then (if isLeap y then 29 else 28)
  else if m = 4 ∨ m = 6 ∨ m = 9 ∨ m = 11 then 30
  else 31

/-- Total days of the `k` consecutive months starting at month `m0` of year `y`. -/
def monthsDaysFrom (y : Nat) : Nat → Nat → Nat
  | _, 0 => 0
  | m0, k + 1 => monthLen y m0 + monthsDaysFrom y (m0 + 1) k

/-- Total days of the `k` consecutive years starting at year `y0`. -/
def yearDaysFrom : Nat → Nat → Nat
  | _, 0 => 0
  | y0, k + 1 => daysInYearN y0 + yearDaysFrom (y0 + 1) k

/-- Total days of the years `0, …, y - 1`, in closed form: 365 days a year
plus one for every leap year below `y` (`yearDays_eq` identifies this with
the year-by-year sum `yearDaysFrom 0 y`). -/
def yearDays (y : Nat) : Nat :=
  365 * y + (y + 3) / 4 + (y + 399) / 400 - (y + 99) / 100

/-- Day number of the civil date `(y, m, d)` counted from 0000-01-01 (day 0).
This is ECMA-262 `MakeDay` shifted to the year-0 origin. -/
def daysFromCivil (y m d : Nat) : Nat :=
  yearDays y + monthsDaysFrom y 1 (m - 1) + (d - 1)

/-- Month/day lookup inside one year: given `r` days into the year (0-based),
return the 1-based month and day (ECMA-262 `MonthFromTime`/`DateFromTime`). -/
def monthFromDaysGo (y : Nat) (m r : Nat) : Nat × Nat :=
  if r < monthLen y m ∨ 12 ≤ m then (m, r + 1)
  else monthFromDaysGo y (m + 1) (r - monthLen y m)
  termination_by 12 - m
  decreasing_by
    simp only [not_or, not_lt, not_le] at *
    omega

/-- Civil date from a day number, scanning years upward from `y0`
(ECMA-262 `YearFromTime` composed with month/day lookup). -/
def civilFromDaysGo (y0 n : Nat) : Nat × Nat × Nat :=
  if h : n < daysInYearN y0 then
    let md := monthFromDaysGo y0 1 n
    (y0, md.1, md.2)
  else
    civilFromDaysGo (y0 + 1) (n - daysInYearN y0)
  termination_by n
  decreasing_by
    simp only [not_lt] at h
    have h365 : 365 ≤ daysInYearN y0 := by
      unfold daysInYearN; split <;> omega
    omega

/-- Civil date of day number `n` (day 0 = 0000-01-01). -/
def civilFromDays (n : Nat) : Nat × Nat × Nat :=
  civilFromDaysGo 0 n

/-- The calendar day after `(y, m, d)`: day, month and year rollover.
This is the specification-side notion "the calendar day after the stored
end date (including month and year rollover)". -/
def calNextDay : Nat × Nat × Nat → Nat × Nat × Nat
  | (y, m, d) =>
    if d < monthLen y m then (y, m, d + 1)
    else if m < 12 then (y, m + 1, 1)
    else (y + 1, 1, 1)

/-- Validity of a civil date triple. -/
def ValidYMD (y m d : Nat) : Prop :=
  1 ≤ m ∧ m ≤ 12 ∧ 1 ≤ d ∧ d ≤ monthLen y m

instance (y m d : Nat) : Decidable (ValidYMD y m d) := by
  unfold ValidYMD; infer_instance

/-! ## Digit rendering (JS `toISOString` field formatting, years 0-9999) -/

/-- The decimal digit character for `n % 10`. -/
def digitChar (n : Nat) : Char := Char.ofNat (48 + n % 10)

/-- Two-digit zero-padded decimal rendering (faithful to `toISOString` for
`n < 100`). -/
def pad2l (n : Nat) : List Char := [digitChar (n / 10), digitChar n]

/-- Four-digit zero-padded decimal rendering (faithful to `toISOString` for
years `0`-`9999`; outside that range JS switches to an expanded-year form
that no theorem below relies on). -/
def pad4l (n : Nat) : List Char :=
  [digitChar (n / 1000), digitChar (n / 100), digitChar (n / 10), digitChar n]

/-- `YYYYMMDD` digits of a civil date, as rendered by
`toISOString().slice(0, 10).dash-removing replace` for years `0`-`9999`. -/
def renderYMD8 : Nat × Nat × Nat → String
  | (y, m, d) => ⟨pad4l y ++ pad2l m ++ pad2l d⟩

/-- Six-digit zero-padded decimal rendering, as used by the expanded-year
form of `toISOString` (faithful for `n < 1000000`; `toISOString` itself
never reaches six-digit overflow — it throws beyond year 275760). -/
def pad6l (n : Nat) : List Char :=
  [digitChar (n / 100000), digitChar (n / 10000), digitChar (n / 1000),
   digitChar (n / 100), digitChar (n / 10), digitChar n]

/-- The result of `toISOString().slice(0, 10).dash-removing replace` on a
civil date with a nonnegative year.  For years `0`-`9999` the ISO string
starts `YYYY-MM-DD…` and the slice keeps the whole date: the digits
`YYYYMMDD`.  For years `10000`-`999999` `toISOString` switches to the
ECMA-262 expanded-year form `+YYYYYY-MM-DD…`; its first ten characters are
only `+YYYYYY-MM` — the day is cut off — so removing the dashes leaves
`+YYYYYYMM`, sign included. -/
def isoDateDigits : Nat × Nat × Nat → String
  | (y, m, d) =>
    if y ≤ 9999 then renderYMD8 (y, m, d)
    else ⟨'+' :: (pad6l y ++ pad2l m)⟩

/-- `dash-removing replace`: remove every dash. -/
def removeDashes (s : String) : String := ⟨s.data.filter (fun c => c ≠ '-')⟩

/-! ## JS `Date` string parsing (ECMA-262 Date Time String Format)

`caldav.ts` hands strings to `new Date(...)`.  The fragment of the format
the theorems rely on is embedded here: `YYYY-MM-DD` calendar dates and
date-times carrying an explicit UTC designator `Z` or a numeric offset
`±HH:MM`.  Inputs outside this fragment are mapped to `none`: they are
either invalid dates (on which the source would throw inside
`toISOString`) or date-times without an offset, which ECMA-262 interprets
in the host's local time zone and which therefore have no host-independent
meaning to verify against. -/

/-- Split a character list at every occurrence of the separator
(`String.prototype.split` with a one-character separator; splitting the
empty string gives one empty group). -/
def splitOnChar (sep : Char) : List Char → List (List Char)
  | [] => [[]]
  | c :: rest =>
    match splitOnChar sep rest with
    | g :: gs => if c = sep then [] :: g :: gs else (c :: g) :: gs
    | [] => [[c]]

/-- Decimal digit `0`-`9`. -/
def isDigitChar (c : Char) : Bool := decide (48 ≤ c.toNat ∧ c.toNat ≤ 57)

/-- Value of an all-digit character list read as a decimal numeral. -/
def digitsToNat (l : List Char) : Nat :=
  l.foldl (fun acc c => acc * 10 + (c.toNat - 48)) 0

/-- A fixed-width all-digit group. -/
def parseDigits (width : Nat) (u : List Char) : Option Nat :=
  if u.length = width ∧ u.all isDigitChar then some (digitsToNat u) else none

/-- Parse `YYYY-MM-DD` (the ECMA-262 date-only form, interpreted as UTC).
Exactly three dash-separated all-digit groups of widths 4, 2, 2, with the
month in 1-12 and the day in 1-31 as required by the grammar. -/
def parseYMDL (l : List Char) : Option (Nat × Nat × Nat) :=
  match splitOnChar '-' l with
  | [ys, ms, ds] =>
    (parseDigits 4 ys).bind fun y =>
      (parseDigits 2 ms).bind fun m =>
        (parseDigits 2 ds).bind fun d =>
          if 1 ≤ m ∧ m ≤ 12 ∧ 1 ≤ d ∧ d ≤ 31 then some (y, m, d) else none
  | _ => none

/-- `parseYMDL` on a `String`. -/
def parseYMD (s : String) : Option (Nat × Nat × Nat) := parseYMDL s.data

/-- Parse `HH:MM`, `HH:MM:SS` or `HH:MM:SS.sss` (the three-digit
millisecond group is validated and discarded: the second-resolution
rendering below never shows it). -/
def parseHMS (t : List Char) : Option (Nat × Nat × Nat) :=
  match splitOnChar ':' t with
  | [hs, ms] =>
    (parseDigits 2 hs).bind fun h =>
      (parseDigits 2 ms).bind fun m =>
        if h ≤ 23 ∧ m ≤ 59 then some (h, m, 0) else none
  | [hs, ms, rest] =>
    (parseDigits 2 hs).bind fun h =>
      (parseDigits 2 ms).bind fun m =>
        (match splitOnChar '.' rest with
         | [ss] => parseDigits 2 ss
         | [ss, frac] =>
           if frac.length = 3 ∧ frac.all isDigitChar then parseDigits 2 ss else none
         | _ => none).bind fun s =>
          if h ≤ 23 ∧ m ≤ 59 ∧ s ≤ 59 then some (h, m, s) else none
  | _ => none

/-- Parse an unsigned `HH:MM` offset into minutes. -/
def parseOffMin (o : List Char) : Option Nat :=
  match splitOnChar ':' o with
  | [hs, ms] =>
    (parseDigits 2 hs).bind fun h =>
      (parseDigits 2 ms).bind fun m =>
        if h ≤ 23 ∧ m ≤ 59 then some (h * 60 + m) else none
  | _ => none

/-- Parse the time-and-offset part after `T`: time followed by `Z` or a
signed `±HH:MM` offset (minutes east of UTC, as in ISO-8601). -/
def parseTimeOffset (t : List Char) : Option (Nat × Nat × Nat × Int) :=
  if t.getLast? = some 'Z' then
    (parseHMS t.dropLast).map fun hms => (hms.1, hms.2.1, hms.2.2, (0 : Int))
  else
    match splitOnChar '+' t with
    | [tm, off] =>
      (parseHMS tm).bind fun hms =>
        (parseOffMin off).map fun o => (hms.1, hms.2.1, hms.2.2, (o : Int))
    | [tm] =>
      match splitOnChar '-' tm with
      | [tm2, off] =>
        (parseHMS tm2).bind fun hms =>
          (parseOffMin off).map fun o => (hms.1, hms.2.1, hms.2.2, -(o : Int))
      | _ => none
    | _ => none

/-- A parsed ISO-8601 instant: civil fields plus an offset in minutes. -/
structure JsInstant where
  y : Nat
  m : Nat
  d : Nat
  hh : Nat
  mm : Nat
  ss : Nat
  offMin : Int
  deriving DecidableEq, Repr

/-- `new Date(s)` on the embedded fragment of the Date Time String Format. -/
def parseInstant (s : String) : Option JsInstant :=
  match splitOnChar 'T' s.data with
  | [d] => (parseYMDL d).map fun ymd => ⟨ymd.1, ymd.2.1, ymd.2.2, 0, 0, 0, 0⟩
  | [d, t] =>
    (parseYMDL d).bind fun ymd =>
      (parseTimeOffset t).map fun hmso =>
        ⟨ymd.1, ymd.2.1, ymd.2.2, hmso.1, hmso.2.1, hmso.2.2.1, hmso.2.2.2⟩
  | _ => none

/-- The instant denoted by parsed fields, in seconds on the linear timeline
whose origin is 0000-01-01T00:00:00Z (ECMA-262 `MakeDate`/`MakeDay`/
`MakeTime`, shifted by the constant 719528 days from the Unix epoch). -/
def toTimelineSec (x : JsInstant) : Int :=
  (daysFromCivil x.y x.m x.d : Int) * 86400
    + (x.hh : Int) * 3600 + (x.mm : Int) * 60 + (x.ss : Int)
    - x.offMin * 60

/-- UTC civil fields of an instant. -/
structure UTCFields where
  y : Nat
  m : Nat
  d : Nat
  hh : Nat
  mm : Nat
  ss : Nat
  deriving DecidableEq, Repr

/-- Valid UTC fields: a real calendar date and in-range time components. -/
def ValidUTC (u : UTCFields) : Prop :=
  ValidYMD u.y u.m u.d ∧ u.hh < 24 ∧ u.mm < 60 ∧ u.ss < 60

instance (u : UTCFields) : Decidable (ValidUTC u) := by
  unfold ValidUTC; infer_instance

/-- Timeline second denoted by UTC fields. -/
def utcToSec (u : UTCFields) : Nat :=
  daysFromCivil u.y u.m u.d * 86400 + u.hh * 3600 + u.mm * 60 + u.ss

/-- UTC fields of a timeline second (ECMA-262 `YearFromTime` /
`MonthFromTime` / `DateFromTime` / `HourFromTime` / `MinFromTime` /
`SecFromTime`). -/
def utcFieldsOfSec (n : Nat) : UTCFields :=
  let ymd := civilFromDays (n / 86400)
  { y := ymd.1, m := ymd.2.1, d := ymd.2.2
    hh := n % 86400 / 3600, mm := n % 3600 / 60, ss := n % 60 }

/-- `YYYYMMDDTHHMMSSZ` rendering of UTC fields: this is
`toISOString().replace(/[-:]/g, "").split(".")[0]` plus the re-appended
`Z`, for years 0-9999. -/
def renderBasic (u : UTCFields) : String :=
  ⟨pad4l u.y ++ pad2l u.m ++ pad2l u.d ++ 'T' :: (pad2l u.hh ++ pad2l u.mm ++ pad2l u.ss ++ ['Z'])⟩

/-- `formatDate` from `caldav.ts`: `new Date(dateStr).toISOString()` with
dashes and colons removed (the regex deletes every hyphen, a leading sign
included), the millisecond part split off, and `Z` re-appended.  The
rendering depends on where the instant's UTC equivalent falls:
for years `0`-`9999` `toISOString` yields `YYYY-MM-DDTHH:MM:SS.sssZ`
and the transform gives `YYYYMMDDTHHMMSSZ` (`renderBasic`); for years
`10000` and beyond it yields the expanded form `+YYYYYY-MM-DD…`, whose
surviving `+` sign makes the result `+YYYYYYMMDDTHHMMSSZ`; for instants
less than a day before year 0 — the only negative instants `parseInstant`
can produce, offsets being under 24 hours — it yields
`-000001-12-31THH:MM:SS.sssZ` and the dash removal also deletes the sign,
giving `000001` `1231` `T` `HHMMSS` `Z`.  Unparseable inputs give `none`
(an invalid `Date`, on which `toISOString` throws a `RangeError`), as do
instants more than a day before year 0 (unreachable from `parseInstant`;
they would need a negative-year civil calendar) and instants past the
`Date` range limit of 100000000 days after the Unix epoch — day number
100719528 on this year-0 timeline — where `toISOString` throws. -/
def formatDate (s : String) : Option String :=
  (parseInstant s).bind fun x =>
    if toTimelineSec x < 0 then
      if -86400 < toTimelineSec x then
        some ⟨pad6l 1 ++ pad2l 12 ++ pad2l 31 ++ 'T'
          :: (pad2l ((86400 + toTimelineSec x).toNat / 3600)
              ++ pad2l ((86400 + toTimelineSec x).toNat % 3600 / 60)
              ++ pad2l ((86400 + toTimelineSec x).toNat % 60) ++ ['Z'])⟩
      else none
    else
      if (utcFieldsOfSec (toTimelineSec x).toNat).y ≤ 9999 then
        some (renderBasic (utcFieldsOfSec (toTimelineSec x).toNat))
      else if toTimelineSec x ≤ 100719528 * 86400 then
        some ⟨'+' :: (pad6l (utcFieldsOfSec (toTimelineSec x).toNat).y
          ++ pad2l (utcFieldsOfSec (toTimelineSec x).toNat).m
          ++ pad2l (utcFieldsOfSec (toTimelineSec x).toNat).d ++ 'T'
          :: (pad2l (utcFieldsOfSec (toTimelineSec x).toNat).hh
              ++ pad2l (utcFieldsOfSec (toTimelineSec x).toNat).mm
              ++ pad2l (utcFieldsOfSec (toTimelineSec x).toNat).ss ++ ['Z']))⟩
      else none

/-- `formatDateOnly` from `caldav.ts`.  The `length === 10` branch removes
the dashes from the literal string (`dash-removing replace`, no timezone
conversion).  The other branch routes through `new Date` plus
`toISOString().slice(0, 10)`; all-day events carry `YYYY-MM-DD` values
(spec §3), so that branch is never exercised by the properties below and is
modelled as unavailable (`none`). -/
def formatDateOnly (s : String) : Option String :=
  if s.length = 10 then some (removeDashes s) else none

/-- `formatDateOnlyExclusive` from `caldav.ts`: take the 10-character date
part, build `new Date(datePart + "T00:00:00Z")`, advance one day with
`setUTCDate(getUTCDate() + 1)` (ECMA-262 `MakeDay`, embedded as
`daysFromCivil … + 1`), and render `toISOString().slice(0, 10)` without
dashes (`civilFromDays` plus `isoDateDigits`).  When the advanced day
leaves the 4-digit-year range — input `9999-12-31`, successor
`10000-01-01` — `toISOString` switches to the expanded-year form and the
slice-and-replace yields `+01000001` (sign, six year digits, month; the
day truncated away) rather than any `YYYYMMDD` date.  Unparseable date
parts give `none` (JS would throw in `toISOString`); as in
`formatDateOnly` the non-10-character branch is modelled as
unavailable. -/
def formatDateOnlyExclusive (s : String) : Option String :=
  if s.length = 10 then
    (parseYMD s).map fun ymd =>
      isoDateDigits (civilFromDays (daysFromCivil ymd.1 ymd.2.1 ymd.2.2 + 1))
  else none

/-- Shape predicate: a 16-character `YYYYMMDDTHHMMSSZ` basic-format UTC
timestamp — fourteen decimal digits with `T` after the date part and a
final `Z`. -/
def isBasicUtcShape (s : String) : Bool :=
  match s.data with
  | [c1, c2, c3, c4, c5, c6, c7, c8, t, c9, c10, c11, c12, c13, c14, z] =>
    t == 'T' && z == 'Z'
      && ([c1, c2, c3, c4, c5, c6, c7, c8, c9, c10, c11, c12, c13, c14].all Char.isDigit)
  | _ => false

/-! ## Content-line folding (`foldLine`, RFC 5545 §3.1)

`foldLine` works on the UTF-8 bytes of a content line (`TextEncoder`
output), embedded here as `List Nat` of byte values.  The loop state
`offset`/`bytes` is embedded by recursing on the not-yet-consumed suffix,
so the absolute positions `offset`, `end` of the source correspond to the
relative position used below (`bytes[offset + j]` = suffix `get? j`). -/

/-- Is the byte a UTF-8 continuation byte?  The source tests
`(bytes[end] & 0xc0) === 0x80`, i.e. the two high bits are `10`, i.e. the
byte value is in `[0x80, 0xc0)` (bytes are already `< 256` as elements of a
`Uint8Array`; `% 256` makes the embedding total). -/
def contByte (b : Nat) : Bool := decide (0x80 ≤ b % 256 ∧ b % 256 < 0xc0)

/-- Length of the UTF-8 sequence introduced by a lead byte: `1` for ASCII
(`0xxxxxxx`), `2`-`4` for `110xxxxx`/`1110xxxx`/`11110xxx`, `0` when the
byte cannot start a sequence. -/
def leadLen (b : Nat) : Nat :=
  if b % 256 < 0x80 then 1
  else if 0xc0 ≤ b % 256 ∧ b % 256 < 0xe0 then 2
  else if 0xe0 ≤ b % 256 ∧ b % 256 < 0xf0 then 3
  else if 0xf0 ≤ b % 256 ∧ b % 256 < 0xf8 then 4
  else 0

/-- One step of the UTF-8 well-formedness check, with structural fuel (the
source has no fuel; `validUtf8` passes the list length, which
`validUtf8Go_fuel` shows is always enough). -/
def validUtf8Go : Nat → List Nat → Bool
  | _, [] => true
  | 0, _ :: _ => false
  | fuel + 1, b :: rest =>
    (leadLen b != 0) && decide (leadLen b - 1 ≤ rest.length)
      && (rest.take (leadLen b - 1)).all contByte
      && validUtf8Go fuel (rest.drop (leadLen b - 1))

/-- The byte list is a well-formed UTF-8 encoding: a sequence of
characters, each a lead byte followed by `leadLen - 1` continuation
bytes. -/
def validUtf8 (l : List Nat) : Bool := validUtf8Go l.length l

/-- The boundary back-off loop of `foldLine`: from candidate split position
`e` (relative to the chunk start), step backwards while the position is
neither the chunk start nor past the end and the byte there is a UTF-8
continuation byte (`while (end > offset && end < bytes.length &&
(bytes[end] & 0xc0) === 0x80) end--`). -/
def adjustRel (l : List Nat) : Nat → Nat
  | 0 => 0
  | e + 1 =>
    match l.get? (e + 1) with
    | some b => if contByte b then adjustRel l e else e + 1
    | none => e + 1

/-- The chunking loop of `foldLine`: take `min limit length` bytes, back
off to a UTF-8 boundary, emit the chunk, continue on the rest with limit
74 (continuation lines hold one byte fewer, for the leading space).  The
source's `while (offset < bytes.length)` has no fuel; the explicit fuel
is only a Lean totality device — `foldChunks` passes `bytes.length`,
which theorem `foldChunksGo_spec` shows is never exhausted on well-formed
UTF-8 input (the only input `TextEncoder` can produce). -/
def foldChunksGo : Nat → List Nat → Nat → List (List Nat)
  | 0, _, _ => []
  | _ + 1, [], _ => []
  | fuel + 1, b :: rest, limit =>
    let l := b :: rest
    let e := adjustRel l (min limit l.length)
    l.take e :: foldChunksGo fuel (l.drop e) 74

/-- The chunk list produced by `foldLine`: a line of at most 75 bytes is
left untouched (a single chunk), longer lines are split by the loop
above. -/
def foldChunks (bytes : List Nat) : List (List Nat) :=
  if bytes.length ≤ 75 then [bytes]
  else foldChunksGo bytes.length bytes 75

/-- The bytes of `foldLine`'s returned string: the chunks joined by
`"\n "` (line break plus exactly one space, bytes `10`, `32`). -/
def foldLineBytes (bytes : List Nat) : List Nat :=
  List.intercalate [10, 32] (foldChunks bytes)

/-! ## Text escaping (`escapeText` in `generateIcs`) -/

/-- First replace pass of `escapeText`: each backslash, semicolon and comma
is prefixed with a backslash (`[\\;,]` global replace). -/
def escapeSpecialsL : List Char → List Char
  | [] => []
  | c :: rest =>
    if c = '\\' ∨ c = ';' ∨ c = ',' then '\\' :: c :: escapeSpecialsL rest
    else c :: escapeSpecialsL rest

/-- Second replace pass of `escapeText`: each newline becomes the
two-character sequence backslash-`n`. -/
def escapeNewlinesL : List Char → List Char
  | [] => []
  | c :: rest =>
    if c = '\n' then '\\' :: 'n' :: escapeNewlinesL rest
    else c :: escapeNewlinesL rest

/-- `escapeText` from `caldav.ts`: backslash escaping applied first, then
newline substitution. -/
def escapeTextL (l : List Char) : List Char := escapeNewlinesL (escapeSpecialsL l)

/-- `escapeText` on `String` values. -/
def escapeText (s : String) : String := ⟨escapeTextL s.data⟩

/-- Modelled from the spec: the escape rule for one character — special
characters get a backslash prefix, a newline becomes backslash-`n`, all
other characters are untouched. -/
def escCharSpec (c : Char) : List Char :=
  if c = '\\' ∨ c = ';' ∨ c = ',' then ['\\', c]
  else if c = '\n' then ['\\', 'n']
  else [c]

/-- Modelled from the spec: "reversing these escape rules" — a backslash
followed by `n` becomes a newline, a backslash followed by any other
character becomes that character, everything else is copied. -/
def unescapeTextL : List Char → List Char
  | [] => []
  | '\\' :: c :: rest => (if c = 'n' then '\n' else c) :: unescapeTextL rest
  | c :: rest => c :: unescapeTextL rest

/-! ## Truncation (`truncateText` in `description.ts`) -/

/-- The JS `String.prototype.trim` whitespace set (ECMA-262 `TrimString`:
WhiteSpace plus LineTerminator code points). -/
def isJsSpace (c : Char) : Bool :=
  decide (c = ' ' ∨ c = '\t' ∨ c = '\n' ∨ c = '\r'
    ∨ c.toNat = 0x0b ∨ c.toNat = 0x0c ∨ c.toNat = 0xa0 ∨ c.toNat = 0xfeff
    ∨ c.toNat = 0x1680 ∨ (0x2000 ≤ c.toNat ∧ c.toNat ≤ 0x200a)
    ∨ c.toNat = 0x2028 ∨ c.toNat = 0x2029 ∨ c.toNat = 0x202f
    ∨ c.toNat = 0x205f ∨ c.toNat = 0x3000)

/-- `text.trim()`: strip the whitespace set from both ends. -/
def jsTrim (l : List Char) : List Char :=
  ((l.dropWhile isJsSpace).reverse.dropWhile isJsSpace).reverse

/-- `cut.lastIndexOf(" ")`: index of the last space character, `none` for
the JS result `-1`. -/
def lastSpaceIdx : List Char → Option Nat
  | [] => none
  | c :: rest =>
    match lastSpaceIdx rest with
    | some i => some (i + 1)
    | none => if c = ' ' then some 0 else none

/-- Modelled from the spec: C6 reads "finds the last whitespace in the cut
fragment"; this is the index of the last whitespace character (the JS
whitespace class), to compare with the source's space-only
`lastIndexOf(" ")`. -/
def lastWhitespaceIdx : List Char → Option Nat
  | [] => none
  | c :: rest =>
    match lastWhitespaceIdx rest with
    | some i => some (i + 1)
    | none => if isJsSpace c then some 0 else none

/-- `truncateText` from `description.ts` (the identical algorithm is inlined
in the injected scripts at `description.ts:51` and `description.ts:217`):
trim; return the trimmed text when it fits; otherwise cut at `maxLength`,
move the cut to the last space when that space lies beyond half of
`maxLength` (`lastSpace > maxLength * 0.5`, i.e. `2 * lastSpace >
maxLength`; the JS `-1` of a spaceless cut never passes this test), and
append a single ellipsis character. -/
def truncateText (text : List Char) (maxLength : Nat) : List Char :=
  if (jsTrim text).length ≤ maxLength then jsTrim text
  else
    match lastSpaceIdx ((jsTrim text).take maxLength) with
    | some ls =>
      if 2 * ls > maxLength then ((jsTrim text).take maxLength).take ls ++ ['…']
      else (jsTrim text).take maxLength ++ ['…']
    | none => (jsTrim text).take maxLength ++ ['…']

/-! ## Date-suggestion deduplication (`extractDateSuggestions`) -/

/-- A date/time suggestion produced by the injected extraction script. -/
structure DateTimeSuggestion where
  start : String
  «end» : Option String
  label : String
  deriving DecidableEq, Repr

/-- The dedup key `start + "|" + (end ?? "")`. -/
def dedupKey (s : DateTimeSuggestion) : String :=
  s.start ++ "|" ++ s.«end».getD ""

/-- The dedup-and-cap loop of `extractDateSuggestions`: walk the candidates
in pass order, skip keys already seen, push first occurrences, and break
as soon as the output reaches 5 entries (`if (unique.length >= 5) break`).
The `seen` set is embedded as the list of keys added so far. -/
def dedupCapGo : List DateTimeSuggestion → List String → List DateTimeSuggestion
    → List DateTimeSuggestion
  | [], _, uniq => uniq
  | s :: rest, seen, uniq =>
    if seen.contains (dedupKey s) then dedupCapGo rest seen uniq
    else if 5 ≤ uniq.length + 1 then uniq ++ [s]
    else dedupCapGo rest (dedupKey s :: seen) (uniq ++ [s])

/-- The deduplicated, capped suggestion list returned by the injected
script. -/
def dedupCap (l : List DateTimeSuggestion) : List DateTimeSuggestion :=
  dedupCapGo l [] []

/-- Modelled from the spec: "keeps the first occurrence of each key in the
priority/insertion order" — the subsequence of first key occurrences,
without any cap. -/
def firstOccurrences : List DateTimeSuggestion → List String → List DateTimeSuggestion
  | [], _ => []
  | s :: rest, seen =>
    if seen.contains (dedupKey s) then firstOccurrences rest seen
    else s :: firstOccurrences rest (dedupKey s :: seen)

/-- A description suggestion produced by the injected extraction script. -/
structure DescriptionSuggestion where
  text : String
  source : String
  deriving DecidableEq, Repr

/-! ## Transport (`CalDavClient.checkConnection` / `createEvent`)

The HTTP layer is an external collaborator: a `fetch` call either resolves
with a response or rejects with an opaque error value (embedded as a
string).  The functions below are the source's handling of that outcome —
everything `checkConnection`/`createEvent` does after `await fetch`. -/

/-- The response data the source consumes: HTTP status code and text. -/
structure HttpResponse where
  status : Nat
  statusText : String
  deriving DecidableEq, Repr

/-- Fetch-standard `Response.ok`: the status is in the successful 2xx range
(which includes the WebDAV 207 Multi-Status). -/
def respOk (r : HttpResponse) : Bool := decide (200 ≤ r.status ∧ r.status ≤ 299)

/-- Outcome of an awaited `fetch`: a response, or a network-level
rejection. -/
inductive FetchOutcome where
  | success (r : HttpResponse)
  | networkFailure (e : String)
  deriving DecidableEq, Repr

/-- An error escaping `createEvent`: the `Error` it constructs for a bad
status, or the untouched network-level rejection. -/
inductive CreateEventError where
  | httpError (message : String)
  | networkError (e : String)
  deriving DecidableEq, Repr

/-- The message of the error thrown on a bad status:
`Failed to create event: <status> <statusText>`. -/
def createEventMessage (status : Nat) (statusText : String) : String :=
  "Failed to create event: " ++ toString status ++ " " ++ statusText

/-- `createEvent`'s handling of the PUT outcome: a rejection of `fetch`
propagates unchanged; a response throws exactly when it is not ok and has
neither status 201 nor status 204, with the status code and text carried in
the error message. -/
def createEventResult (outcome : FetchOutcome) : Except CreateEventError Unit :=
  match outcome with
  | .networkFailure e => .error (.networkError e)
  | .success r =>
    if ¬(respOk r = true) ∧ r.status ≠ 201 ∧ r.status ≠ 204 then
      .error (.httpError (createEventMessage r.status r.statusText))
    else .ok ()

/-- `checkConnection`'s handling of the PROPFIND outcome: the whole await is
wrapped in `try`/`catch`, so a rejection becomes `false` (after logging)
and a response yields `response.ok`.  Totality of this function is the
embedded form of "never throws". -/
def checkConnection (outcome : FetchOutcome) : Bool :=
  match outcome with
  | .success r => respOk r
  | .networkFailure _ => false

/-! ## Extraction entry points (`description.ts`)

Each entry point awaits `browser.scripting.executeScript` inside
`try`/`catch`.  The outcome is embedded as an `Except`: a rejection of the
remote execution, or its value — `results?.[0]?.result`, which can be
null/undefined (`Option`). -/

/-- `extractDateSuggestions` after the await: a rejection is caught and
becomes `[]`; a null/undefined result falls back to `[]` (`?? []`). -/
def extractDateSuggestionsResult
    (outcome : Except String (Option (List DateTimeSuggestion))) :
    List DateTimeSuggestion :=
  match outcome with
  | .error _ => []
  | .ok r => r.getD []

/-- `extractDescriptionSuggestions` after the await: same shape as the date
extraction. -/
def extractDescriptionSuggestionsResult
    (outcome : Except String (Option (List DescriptionSuggestion))) :
    List DescriptionSuggestion :=
  match outcome with
  | .error _ => []
  | .ok r => r.getD []

/-- `extractSelectionSiblingText` after the await: a rejection is caught and
becomes `null`; a null/undefined result falls back to `null` (`?? null`). -/
def extractSelectionSiblingTextResult
    (outcome : Except String (Option String)) : Option String :=
  match outcome with
  | .error _ => none
  | .ok r => r

/-! ## Event record and ICS assembly (`generateIcs`) -/

/-- The `CalendarEvent` record of `caldav.ts` (the all-day variant). -/
structure CalendarEvent where
  title : String
  start : String
  «end» : String
  allDay : Bool := false
  description : Option String := none
  url : Option String := none
  deriving DecidableEq, Repr

/-- The `DTSTART` property line: a `VALUE=DATE` literal date for all-day
events, a UTC date-time otherwise. -/
def dtStartProp (e : CalendarEvent) : Option String :=
  if e.allDay then (formatDateOnly e.start).map (fun v => "DTSTART;VALUE=DATE:" ++ v)
  else (formatDate e.start).map (fun v => "DTSTART:" ++ v)

/-- The `DTEND` property line: a `VALUE=DATE` exclusive end (stored end plus
one day) for all-day events, a UTC date-time otherwise. -/
def dtEndProp (e : CalendarEvent) : Option String :=
  if e.allDay then (formatDateOnlyExclusive e.«end»).map (fun v => "DTEND;VALUE=DATE:" ++ v)
  else (formatDate e.«end»).map (fun v => "DTEND:" ++ v)

/-- The ordered content lines assembled by `generateIcs`, before folding.
`uid` is the caller-generated UID and `dtStamp` the already-rendered
`formatDate(new Date().toISOString())` value (the current instant is an
ambient input of the source, passed explicitly here).  `none` marks inputs
on which the source's date handling would throw (see `formatDate`). -/
def generateIcsLines (e : CalendarEvent) (uid dtStamp : String) : Option (List String) :=
  (dtStartProp e).bind fun ds =>
    (dtEndProp e).map fun de =>
      let description := match e.description with
        | some t => if t ≠ "" then escapeText t else ""
        | none => ""
      ["BEGIN:VCALENDAR", "VERSION:2.0", "PRODID:-//SendToCal//EN", "BEGIN:VEVENT",
        "UID:" ++ uid, "DTSTAMP:" ++ dtStamp, ds, de,
        "SUMMARY:" ++ escapeText e.title]
      ++ (if description ≠ "" then ["DESCRIPTION:" ++ description] else [])
      ++ (match e.url with
          | some u => if u ≠ "" then ["URL:" ++ u] else []
          | none => [])
      ++ ["END:VEVENT", "END:VCALENDAR"]

/-- UTF-8 encoding of one character (`TextEncoder`). -/
def charBytes (c : Char) : List Nat :=
  let n := c.toNat
  if n < 0x80 then [n]
  else if n < 0x800 then [0xc0 + n / 64, 0x80 + n % 64]
  else if n < 0x10000 then [0xe0 + n / 4096, 0x80 + n / 64 % 64, 0x80 + n % 64]
  else [0xf0 + n / 262144, 0x80 + n / 4096 % 64, 0x80 + n / 64 % 64, 0x80 + n % 64]

/-- UTF-8 bytes of a string (`TextEncoder.encode`). -/
def strBytes (s : String) : List Nat := (s.data.map charBytes).flatten

/-- The full `generateIcs` output at the byte level: every content line
folded (`foldLineBytes`) and the folded lines joined with `"\n"`
(`lines.map(line => this.foldLine(line)).join("\n")`). -/
def generateIcs (e : CalendarEvent) (uid dtStamp : String) : Option (List Nat) :=
  (generateIcsLines e uid dtStamp).map fun ls =>
    List.intercalate [10] (ls.map fun l => foldLineBytes (strBytes l))

/-! ## Theorems

Supporting lemmas first (calendar round trips, UTF-8 boundary analysis,
dedup loop invariants), then one theorem per verified property of the
source, each with its concrete-input witness where the statement carries
hypotheses. -/

theorem monthsDaysFrom_snoc (y : Nat) (m0 k : Nat) :
    monthsDaysFrom y m0 (k + 1) = monthsDaysFrom y m0 k + monthLen y (m0 + k) := by
  induction k generalizing m0 with
  | zero => simp [monthsDaysFrom]
  | succ k ih =>
    rw [monthsDaysFrom, ih (m0 + 1), monthsDaysFrom]
    have : m0 + 1 + k = m0 + (k + 1) := by omega
    rw [this]
    omega

theorem yearDaysFrom_snoc (y0 k : Nat) :
    yearDaysFrom y0 (k + 1) = yearDaysFrom y0 k + daysInYearN (y0 + k) := by
  induction k generalizing y0 with
  | zero => simp [yearDaysFrom]
  | succ k ih =>
    rw [yearDaysFrom, ih (y0 + 1), yearDaysFrom]
    have : y0 + 1 + k = y0 + (k + 1) := by omega
    rw [this]
    omega

set_option maxHeartbeats 2000000 in
theorem yearDays_succ (y : Nat) : yearDays (y + 1) = yearDays y + daysInYearN y := by
  unfold yearDays daysInYearN isLeap
  simp only [Bool.or_eq_true, Bool.and_eq_true, beq_iff_eq, bne_iff_ne, ne_eq]
  split_ifs with h
  · omega
  · omega

theorem yearDays_eq (y : Nat) : yearDays y = yearDaysFrom 0 y := by
  induction y with
  | zero => rfl
  | succ y ih =>
    rw [yearDays_succ, ih, yearDaysFrom_snoc, Nat.zero_add]

/-- In any year the 12 months total the year's days. -/
theorem monthsDaysFrom_year (y : Nat) :
    monthsDaysFrom y 1 12 = daysInYearN y := by
  cases h : isLeap y <;>
    simp [monthsDaysFrom, monthLen, daysInYearN, h]

theorem monthLen_pos (y m : Nat) : 1 ≤ monthLen y m := by
  unfold monthLen; split
  · split <;> omega
  · split <;> omega

theorem daysInYearN_ge (y : Nat) : 365 ≤ daysInYearN y := by
  unfold daysInYearN; split <;> omega

/-- Month lookup at an exact cumulative-month offset lands on that month. -/
theorem monthFromDaysGo_shift (y : Nat) (k m0 r : Nat)
    (hk : m0 + k ≤ 12) (hr : r < monthLen y (m0 + k)) :
    monthFromDaysGo y m0 (monthsDaysFrom y m0 k + r) = (m0 + k, r + 1) := by
  induction k generalizing m0 with
  | zero =>
    rw [monthsDaysFrom]
    rw [monthFromDaysGo]
    simp only [Nat.zero_add, Nat.add_zero] at *
    rw [if_pos (Or.inl hr)]
  | succ k ih =>
    rw [monthsDaysFrom]
    rw [monthFromDaysGo]
    have hc : ¬(monthLen y m0 + monthsDaysFrom y (m0 + 1) k + r < monthLen y m0 ∨ 12 ≤ m0) := by
      push_neg
      constructor
      · omega
      · omega
    rw [if_neg hc]
    have harith : monthLen y m0 + monthsDaysFrom y (m0 + 1) k + r - monthLen y m0
        = monthsDaysFrom y (m0 + 1) k + r := by omega
    rw [harith]
    have h1 : m0 + 1 + k ≤ 12 := by omega
    have h2 : r < monthLen y (m0 + 1 + k) := by
      have : m0 + 1 + k = m0 + (k + 1) := by omega
      rw [this]; exact hr
    rw [ih (m0 + 1) h1 h2]
    have : m0 + 1 + k = m0 + (k + 1) := by omega
    rw [this]

/-- Year scan at an exact cumulative-year offset lands on that year. -/
theorem civilFromDaysGo_shift (k y0 n : Nat) (hn : n < daysInYearN (y0 + k)) :
    civilFromDaysGo y0 (yearDaysFrom y0 k + n) = civilFromDaysGo (y0 + k) n := by
  induction k generalizing y0 with
  | zero =>
    rw [yearDaysFrom]
    simp
  | succ k ih =>
    rw [yearDaysFrom]
    rw [civilFromDaysGo]
    have hbig : ¬(daysInYearN y0 + yearDaysFrom (y0 + 1) k + n < daysInYearN y0) := by omega
    rw [dif_neg hbig]
    have harith : daysInYearN y0 + yearDaysFrom (y0 + 1) k + n - daysInYearN y0
        = yearDaysFrom (y0 + 1) k + n := by omega
    rw [harith]
    have h2 : n < daysInYearN (y0 + 1 + k) := by
      have : y0 + 1 + k = y0 + (k + 1) := by omega
      rw [this]; exact hn
    rw [ih (y0 + 1) h2]
    have : y0 + 1 + k = y0 + (k + 1) := by omega
    rw [this]

theorem monthsDaysFrom_mono (y a b : Nat) (hab : a ≤ b) :
    monthsDaysFrom y 1 a ≤ monthsDaysFrom y 1 b := by
  induction b with
  | zero =>
    have ha : a = 0 := by omega
    simp [ha]
  | succ b ih =>
    rcases Nat.lt_or_ge a (b + 1) with hlt | hge
    · have h1 := ih (by omega)
      have h2 := monthsDaysFrom_snoc y 1 b
      have h3 := monthLen_pos y (1 + b)
      omega
    · have ha : a = b + 1 := by omega
      rw [ha]

theorem monthsDaysFrom_lt_year (y m d : Nat) (hv : ValidYMD y m d) :
    monthsDaysFrom y 1 (m - 1) + (d - 1) < daysInYearN y := by
  obtain ⟨h1, h2, h3, h4⟩ := hv
  have hsnoc := monthsDaysFrom_snoc y 1 (m - 1)
  rw [show 1 + (m - 1) = m by omega] at hsnoc
  have hmono := monthsDaysFrom_mono y (m - 1 + 1) 12 (by omega)
  rw [monthsDaysFrom_year] at hmono
  omega

/-- Round trip: converting a valid civil date to its day number and back
is the identity (`civilFromDays ∘ daysFromCivil = id` on valid dates). -/
theorem civilFromDays_daysFromCivil (y m d : Nat) (hv : ValidYMD y m d) :
    civilFromDays (daysFromCivil y m d) = (y, m, d) := by
  obtain ⟨h1, h2, h3, h4⟩ := hv
  unfold civilFromDays daysFromCivil
  rw [yearDays_eq]
  have hin : monthsDaysFrom y 1 (m - 1) + (d - 1) < daysInYearN (0 + y) := by
    rw [Nat.zero_add]
    exact monthsDaysFrom_lt_year y m d ⟨h1, h2, h3, h4⟩
  rw [Nat.add_assoc]
  rw [civilFromDaysGo_shift y 0 _ hin]
  rw [Nat.zero_add]
  rw [civilFromDaysGo]
  rw [dif_pos (monthsDaysFrom_lt_year y m d ⟨h1, h2, h3, h4⟩)]
  have hmd : monthFromDaysGo y 1 (monthsDaysFrom y 1 (m - 1) + (d - 1)) = (m, d) := by
    have := monthFromDaysGo_shift y (m - 1) 1 (d - 1) (by omega) (by
      have hmm : 1 + (m - 1) = m := by omega
      rw [hmm]; omega)
    have hmm : 1 + (m - 1) = m := by omega
    rw [hmm] at this
    have hdd : d - 1 + 1 = d := by omega
    rw [hdd] at this
    exact this
  simp [hmd]

/-- The month/day lookup inverts the cumulative month sum: starting at
month `m0` with `k` months left in the year (`m0 + k = 13`) and `r` days
into them, it returns a valid month/day pair whose cumulative offset is
exactly `r`. -/
theorem monthFromDaysGo_inv (k : Nat) : ∀ (m0 y r : Nat), m0 + k = 13 → 1 ≤ m0 →
    r < monthsDaysFrom y m0 k →
    m0 ≤ (monthFromDaysGo y m0 r).1 ∧ (monthFromDaysGo y m0 r).1 ≤ 12
      ∧ 1 ≤ (monthFromDaysGo y m0 r).2
      ∧ (monthFromDaysGo y m0 r).2 ≤ monthLen y (monthFromDaysGo y m0 r).1
      ∧ monthsDaysFrom y m0 ((monthFromDaysGo y m0 r).1 - m0)
          + ((monthFromDaysGo y m0 r).2 - 1) = r := by
  induction k with
  | zero =>
    intro m0 y r h13 h1 hr
    rw [monthsDaysFrom] at hr
    omega
  | succ k ih =>
    intro m0 y r h13 h1 hr
    rw [monthsDaysFrom] at hr
    by_cases hfirst : r < monthLen y m0 ∨ 12 ≤ m0
    · rw [monthFromDaysGo, if_pos hfirst]
      have hrlen : r < monthLen y m0 := by
        rcases hfirst with h | h
        · exact h
        · have hm012 : m0 = 12 := by omega
          have hk0 : k = 0 := by omega
          rw [hm012, hk0] at hr
          rw [monthsDaysFrom] at hr
          rw [hm012]
          omega
      refine ⟨le_refl m0, by omega, by omega, ?_, ?_⟩
      · simp only
        omega
      · simp only [Nat.sub_self]
        rw [monthsDaysFrom]
        omega
    · rw [monthFromDaysGo, if_neg hfirst]
      push_neg at hfirst
      obtain ⟨hge, hm12⟩ := hfirst
      have hrec := ih (m0 + 1) y (r - monthLen y m0) (by omega) (by omega) (by omega)
      obtain ⟨i1, i2, i3, i4, i5⟩ := hrec
      refine ⟨by omega, i2, i3, i4, ?_⟩
      have hm : (monthFromDaysGo y (m0 + 1) (r - monthLen y m0)).1 - m0
          = ((monthFromDaysGo y (m0 + 1) (r - monthLen y m0)).1 - (m0 + 1)) + 1 := by
        omega
      rw [hm, monthsDaysFrom]
      omega

/-- The year scan inverts the cumulative year sum: any day number lands on
a year at or after the start year, with a valid month/day whose combined
cumulative offset is exactly the day number. -/
theorem civilFromDaysGo_inv (fuel : Nat) : ∀ (n y0 : Nat), n ≤ fuel →
    y0 ≤ (civilFromDaysGo y0 n).1
      ∧ ValidYMD (civilFromDaysGo y0 n).1 (civilFromDaysGo y0 n).2.1 (civilFromDaysGo y0 n).2.2
      ∧ yearDaysFrom y0 ((civilFromDaysGo y0 n).1 - y0)
          + monthsDaysFrom (civilFromDaysGo y0 n).1 1 ((civilFromDaysGo y0 n).2.1 - 1)
          + ((civilFromDaysGo y0 n).2.2 - 1) = n := by
  induction fuel with
  | zero =>
    intro n y0 hn
    have hn0 : n = 0 := by omega
    subst hn0
    rw [civilFromDaysGo, dif_pos (by have := daysInYearN_ge y0; omega)]
    have hm := monthFromDaysGo_inv 12 1 y0 0 (by omega) (by omega)
      (by rw [monthsDaysFrom_year]; have := daysInYearN_ge y0; omega)
    obtain ⟨i1, i2, i3, i4, i5⟩ := hm
    refine ⟨le_refl y0, ⟨i1, i2, i3, i4⟩, ?_⟩
    simp only [Nat.sub_self]
    rw [yearDaysFrom]
    omega
  | succ fuel ih =>
    intro n y0 hn
    by_cases hin : n < daysInYearN y0
    · rw [civilFromDaysGo, dif_pos hin]
      have hm := monthFromDaysGo_inv 12 1 y0 n (by omega) (by omega)
        (by rw [monthsDaysFrom_year]; exact hin)
      obtain ⟨i1, i2, i3, i4, i5⟩ := hm
      refine ⟨le_refl y0, ⟨i1, i2, i3, i4⟩, ?_⟩
      simp only [Nat.sub_self]
      rw [yearDaysFrom]
      omega
    · rw [civilFromDaysGo, dif_neg hin]
      push_neg at hin
      have h365 := daysInYearN_ge y0
      have hrec := ih (n - daysInYearN y0) (y0 + 1) (by omega)
      obtain ⟨i1, i2, i3⟩ := hrec
      refine ⟨by omega, i2, ?_⟩
      have hy : (civilFromDaysGo (y0 + 1) (n - daysInYearN y0)).1 - y0
          = ((civilFromDaysGo (y0 + 1) (n - daysInYearN y0)).1 - (y0 + 1)) + 1 := by
        omega
      rw [hy, yearDaysFrom]
      omega

/-- The other direction of the calendar round trip: every day number comes
from the valid civil date that `civilFromDays` assigns to it. -/
theorem daysFromCivil_civilFromDays (n : Nat) :
    ValidYMD (civilFromDays n).1 (civilFromDays n).2.1 (civilFromDays n).2.2
      ∧ daysFromCivil (civilFromDays n).1 (civilFromDays n).2.1 (civilFromDays n).2.2 = n := by
  obtain ⟨_, hvalid, hsum⟩ := civilFromDaysGo_inv n n 0 (le_refl n)
  refine ⟨hvalid, ?_⟩
  unfold civilFromDays at *
  unfold daysFromCivil
  rw [yearDays_eq]
  simpa using hsum

theorem yearDaysFrom_zero_mono (a b : Nat) (hab : a ≤ b) :
    yearDaysFrom 0 a ≤ yearDaysFrom 0 b := by
  induction b with
  | zero =>
    have ha : a = 0 := by omega
    simp [ha]
  | succ b ih =>
    rcases Nat.lt_or_ge a (b + 1) with hlt | hge
    · have h1 := ih (by omega)
      have h2 := yearDaysFrom_snoc 0 b
      have h3 := daysInYearN_ge (0 + b)
      omega
    · have ha : a = b + 1 := by omega
      rw [ha]

/-- Decomposing any timeline second yields valid UTC fields that denote
exactly that second; below the year-10000 horizon the year stays in the
4-digit range. -/
theorem utcFieldsOfSec_inv (n : Nat) :
    ValidUTC (utcFieldsOfSec n)
      ∧ utcToSec (utcFieldsOfSec n) = n
      ∧ (n < yearDays 10000 * 86400 → (utcFieldsOfSec n).y ≤ 9999) := by
  obtain ⟨hvalid, hsum⟩ := daysFromCivil_civilFromDays (n / 86400)
  have hy : (utcFieldsOfSec n).y = (civilFromDays (n / 86400)).1 := rfl
  have hm : (utcFieldsOfSec n).m = (civilFromDays (n / 86400)).2.1 := rfl
  have hd : (utcFieldsOfSec n).d = (civilFromDays (n / 86400)).2.2 := rfl
  have hhh : (utcFieldsOfSec n).hh = n % 86400 / 3600 := rfl
  have hmm2 : (utcFieldsOfSec n).mm = n % 3600 / 60 := rfl
  have hss : (utcFieldsOfSec n).ss = n % 60 := rfl
  refine ⟨⟨hvalid, ?_, ?_, ?_⟩, ?_, ?_⟩
  · rw [hhh]
    omega
  · rw [hmm2]
    omega
  · rw [hss]
    omega
  · unfold utcToSec
    rw [hy, hm, hd, hhh, hmm2, hss, hsum]
    omega
  · intro hbound
    rw [hy]
    by_contra hbig
    push_neg at hbig
    have hmono := yearDaysFrom_zero_mono 10000 (civilFromDays (n / 86400)).1 (by omega)
    have hexp : daysFromCivil (civilFromDays (n / 86400)).1 (civilFromDays (n / 86400)).2.1
        (civilFromDays (n / 86400)).2.2
        = yearDays (civilFromDays (n / 86400)).1
          + monthsDaysFrom (civilFromDays (n / 86400)).1 1 ((civilFromDays (n / 86400)).2.1 - 1)
          + ((civilFromDays (n / 86400)).2.2 - 1) := rfl
  -- combine: the year sum alone already reaches the 10000-year horizon
    have h1 := yearDays_eq 10000
    have h2 := yearDays_eq (civilFromDays (n / 86400)).1
    omega

/-- Adding one to a valid date's day number is the next calendar day. -/
theorem daysFromCivil_calNextDay (y m d : Nat) (hv : ValidYMD y m d) :
    daysFromCivil y m d + 1 =
      daysFromCivil (calNextDay (y, m, d)).1 (calNextDay (y, m, d)).2.1
        (calNextDay (y, m, d)).2.2 := by
  obtain ⟨h1, h2, h3, h4⟩ := hv
  unfold calNextDay
  by_cases hd : d < monthLen y m
  · simp only [hd, if_true]
    unfold daysFromCivil
    omega
  · by_cases hm : m < 12
    · simp only [hd, if_false, hm, if_true]
      unfold daysFromCivil
      have hsnoc : monthsDaysFrom y 1 ((m - 1) + 1)
          = monthsDaysFrom y 1 (m - 1) + monthLen y (1 + (m - 1)) :=
        monthsDaysFrom_snoc y 1 (m - 1)
      have hmm : 1 + (m - 1) = m := by omega
      rw [hmm] at hsnoc
      have hm1 : (m + 1) - 1 = (m - 1) + 1 := by omega
      rw [hm1, hsnoc]
      omega
    · simp only [hd, if_false, hm]
      have hm12 : m = 12 := by omega
      subst hm12
      have hml : monthLen y 12 = 31 := by
        unfold monthLen; norm_num
      have hd31 : d = 31 := by omega
      subst hd31
      unfold daysFromCivil
      rw [yearDays_eq, yearDays_eq]
      have hy : yearDaysFrom 0 (y + 1) = yearDaysFrom 0 y + daysInYearN y := by
        have := yearDaysFrom_snoc 0 y
        rwa [Nat.zero_add] at this
      have hlast : monthsDaysFrom y 1 11 + monthLen y 12 = daysInYearN y := by
        have hs := monthsDaysFrom_snoc y 1 11
        rw [show 1 + 11 = 12 by norm_num] at hs
        rw [← monthsDaysFrom_year y, hs]
      have h11 : (12 : Nat) - 1 = 11 := by norm_num
      have h0 : monthsDaysFrom (y + 1) 1 (1 - 1) = 0 := rfl
      rw [hy, h11, h0]
      omega

theorem digitChar_isDigit (n : Nat) : (digitChar n).isDigit = true := by
  have h : n % 10 < 10 := Nat.mod_lt _ (by norm_num)
  unfold digitChar
  generalize hg : n % 10 = k at h ⊢
  interval_cases k <;> decide

/-- The decimal fold over a digit list stays below `(acc + 1) * 10 ^ len`:
each step multiplies by ten and adds at most nine. -/
theorem digitsToNat_foldl_lt (l : List Char) :
    ∀ acc : Nat, l.all isDigitChar = true →
      List.foldl (fun a c => a * 10 + (c.toNat - 48)) acc l
        < (acc + 1) * 10 ^ l.length := by
  induction l with
  | nil =>
    intro acc _
    simp
  | cons c rest ih =>
    intro acc hall
    simp only [List.all_cons, Bool.and_eq_true] at hall
    have hc : c.toNat - 48 ≤ 9 := by
      have := of_decide_eq_true hall.1
      omega
    have hstep := ih (acc * 10 + (c.toNat - 48)) hall.2
    calc List.foldl (fun a c => a * 10 + (c.toNat - 48)) acc (c :: rest)
        = List.foldl (fun a c => a * 10 + (c.toNat - 48))
            (acc * 10 + (c.toNat - 48)) rest := by
          simp [List.foldl_cons]
      _ < (acc * 10 + (c.toNat - 48) + 1) * 10 ^ rest.length := hstep
      _ ≤ ((acc + 1) * 10) * 10 ^ rest.length :=
          Nat.mul_le_mul_right _ (by omega)
      _ = (acc + 1) * 10 ^ (c :: rest).length := by
          rw [List.length_cons, pow_succ]
          ring

/-- A fixed-width digit group parses to a value below `10 ^ width`. -/
theorem parseDigits_lt (w : Nat) (u : List Char) (n : Nat)
    (h : parseDigits w u = some n) : n < 10 ^ w := by
  unfold parseDigits at h
  split at h
  · rename_i hcond
    injection h with hn
    have hlt := digitsToNat_foldl_lt u 0 hcond.2
    rw [hcond.1] at hlt
    unfold digitsToNat at hn
    omega
  · exact absurd h (by simp)

/-- The year parsed out of a `YYYY-MM-DD` group is at most 9999: the year
group is exactly four digits wide. -/
theorem parseYMDL_year_le (l : List Char) (y m d : Nat)
    (h : parseYMDL l = some (y, m, d)) : y ≤ 9999 := by
  unfold parseYMDL at h
  rcases hs : splitOnChar '-' l with _ | ⟨ys, _ | ⟨ms, _ | ⟨ds, _ | _⟩⟩⟩ <;> rw [hs] at h
  · exact absurd h (by simp)
  · exact absurd h (by simp)
  · exact absurd h (by simp)
  · have h2 : ((parseDigits 4 ys).bind fun y =>
        (parseDigits 2 ms).bind fun m =>
          (parseDigits 2 ds).bind fun d =>
            if 1 ≤ m ∧ m ≤ 12 ∧ 1 ≤ d ∧ d ≤ 31 then some (y, m, d) else none)
        = some (y, m, d) := h
    rcases hy : parseDigits 4 ys with _ | y'
    · rw [hy] at h2
      exact absurd h2 (by simp)
    · rw [hy] at h2
      simp only [Option.some_bind] at h2
      rcases hm : parseDigits 2 ms with _ | m'
      · rw [hm] at h2
        exact absurd h2 (by simp)
      · rw [hm] at h2
        simp only [Option.some_bind] at h2
        rcases hd : parseDigits 2 ds with _ | d'
        · rw [hd] at h2
          exact absurd h2 (by simp)
        · rw [hd] at h2
          simp only [Option.some_bind] at h2
          split at h2
          · injection h2 with hh
            have hy' : y = y' := by
              have := congrArg Prod.fst hh
              simpa using this.symm
            have := parseDigits_lt 4 ys y' hy
            omega
          · exact absurd h2 (by simp)
  · exact absurd h (by simp)

theorem renderBasic_shape (u : UTCFields) : isBasicUtcShape (renderBasic u) = true := by
  unfold renderBasic pad4l pad2l
  simp only [List.cons_append, List.nil_append]
  unfold isBasicUtcShape
  simp [digitChar_isDigit]

/-- The calendar successor of a valid date is a valid date. -/
theorem calNextDay_valid (y m d : Nat) (hv : ValidYMD y m d) :
    ValidYMD (calNextDay (y, m, d)).1 (calNextDay (y, m, d)).2.1
      (calNextDay (y, m, d)).2.2 := by
  obtain ⟨h1, h2, h3, h4⟩ := hv
  unfold calNextDay
  by_cases hd : d < monthLen y m
  · simp only [hd, if_true]
    exact ⟨h1, h2, by omega, by omega⟩
  · by_cases hm : m < 12
    · simp only [hd, if_false, hm, if_true]
      exact ⟨by omega, by omega, le_refl 1, monthLen_pos y (m + 1)⟩
    · simp only [hd, if_false, hm]
      exact ⟨le_refl 1, by omega, le_refl 1, monthLen_pos (y + 1) 1⟩

/-- Decomposing the timeline second of valid UTC fields recovers exactly
those fields: `toISOString` renders the civil fields that denote the
instant. -/
theorem utcFieldsOfSec_utcToSec (u : UTCFields) (hu : ValidUTC u) :
    utcFieldsOfSec (utcToSec u) = u := by
  obtain ⟨hymd, hh24, hm60, hs60⟩ := hu
  unfold utcFieldsOfSec utcToSec
  have hdiv : (daysFromCivil u.y u.m u.d * 86400 + u.hh * 3600 + u.mm * 60 + u.ss) / 86400
      = daysFromCivil u.y u.m u.d := by omega
  have hhh : (daysFromCivil u.y u.m u.d * 86400 + u.hh * 3600 + u.mm * 60 + u.ss) % 86400 / 3600
      = u.hh := by omega
  have hmm : (daysFromCivil u.y u.m u.d * 86400 + u.hh * 3600 + u.mm * 60 + u.ss) % 3600 / 60
      = u.mm := by omega
  have hss : (daysFromCivil u.y u.m u.d * 86400 + u.hh * 3600 + u.mm * 60 + u.ss) % 60
      = u.ss := by omega
  rw [hdiv, hhh, hmm, hss]
  rw [civilFromDays_daysFromCivil u.y u.m u.d hymd]

/-- The byte list is a well-formed UTF-8 encoding: a sequence of
characters, each a lead byte followed by `leadLen - 1` continuation
bytes. -/
theorem leadLen_le (b : Nat) : leadLen b ≤ 4 := by
  unfold leadLen
  split_ifs <;> omega

/-- The fuel argument is irrelevant once it covers the list length. -/
theorem validUtf8Go_fuel (f1 : Nat) : ∀ (f2 : Nat) (l : List Nat),
    l.length ≤ f1 → l.length ≤ f2 → validUtf8Go f1 l = validUtf8Go f2 l := by
  induction f1 with
  | zero =>
    intro f2 l h1 _
    have : l = [] := List.length_eq_zero.mp (by omega)
    subst this
    cases f2 <;> rfl
  | succ f1 ih =>
    intro f2 l h1 h2
    cases l with
    | nil => cases f2 <;> rfl
    | cons b rest =>
      cases f2 with
      | zero => simp at h2
      | succ f2 =>
        rw [validUtf8Go, validUtf8Go]
        have hd : (rest.drop (leadLen b - 1)).length ≤ f1 := by
          rw [List.length_drop]
          simp only [List.length_cons] at h1
          omega
        have hd2 : (rest.drop (leadLen b - 1)).length ≤ f2 := by
          rw [List.length_drop]
          simp only [List.length_cons] at h2
          omega
        rw [ih f2 _ hd hd2]

/-- Characterization of `validUtf8` on a non-empty list: the head is a lead
byte whose `leadLen - 1` continuation bytes are present, and the remainder
is again well-formed. -/
theorem validUtf8_cons_iff (b : Nat) (rest : List Nat) :
    validUtf8 (b :: rest) = true ↔
      leadLen b ≠ 0 ∧ leadLen b - 1 ≤ rest.length
        ∧ (rest.take (leadLen b - 1)).all contByte = true
        ∧ validUtf8 (rest.drop (leadLen b - 1)) = true := by
  show validUtf8Go (b :: rest).length (b :: rest) = true ↔ _
  simp only [List.length_cons]
  rw [validUtf8Go]
  have hfuel : validUtf8Go rest.length (rest.drop (leadLen b - 1))
      = validUtf8Go (rest.drop (leadLen b - 1)).length (rest.drop (leadLen b - 1)) := by
    apply validUtf8Go_fuel
    · rw [List.length_drop]; omega
    · exact le_refl _
  rw [hfuel]
  show _ ↔ _ ∧ _ ∧ _ ∧ validUtf8 _ = true
  unfold validUtf8
  simp only [Bool.and_eq_true, bne_iff_ne, ne_eq, decide_eq_true_eq]
  tauto

theorem adjustRel_le (l : List Nat) (e : Nat) : adjustRel l e ≤ e := by
  induction e with
  | zero => simp [adjustRel]
  | succ e ih =>
    unfold adjustRel
    cases l.get? (e + 1) with
    | none => simp
    | some b =>
      by_cases hb : contByte b <;> simp [hb]
      omega

theorem adjustRel_of_length_le (l : List Nat) (e : Nat) (h : l.length ≤ e) :
    adjustRel l e = e := by
  cases e with
  | zero => rfl
  | succ e =>
    unfold adjustRel
    have : l.get? (e + 1) = none := by
      rw [List.get?_eq_none]
      omega
    rw [this]

theorem contByte_false_of_leadLen (b : Nat) (h : leadLen b ≠ 0) :
    contByte b = false := by
  unfold leadLen at h
  unfold contByte
  split_ifs at h with h1 h2 h3 h4 <;> simp <;> omega

theorem adjustRel_eq_zero (l : List Nat) (n : Nat)
    (hc : ∀ j, 1 ≤ j → j ≤ n → ∃ b, l.get? j = some b ∧ contByte b = true) :
    ∀ t, t ≤ n → adjustRel l t = 0 := by
  intro t
  induction t with
  | zero => intro _; rfl
  | succ t ih =>
    intro ht
    obtain ⟨b, hb, hcb⟩ := hc (t + 1) (by omega) ht
    unfold adjustRel
    rw [hb]
    simp only [hcb, if_true]
    exact ih (by omega)

theorem adjustRel_append (c l' : List Nat) (hc : c ≠ [])
    (hnc : ∀ b, l'.get? 0 = some b → contByte b = false) :
    ∀ k, adjustRel (c ++ l') (c.length + k) = c.length + adjustRel l' k := by
  intro k
  induction k with
  | zero =>
    obtain ⟨e, he⟩ : ∃ e, c.length = e + 1 := by
      cases c with
      | nil => exact absurd rfl hc
      | cons x xs => exact ⟨xs.length, rfl⟩
    rw [Nat.add_zero, he]
    unfold adjustRel
    have hg : (c ++ l').get? (e + 1) = l'.get? 0 := by
      rw [List.get?_append_right (by omega)]
      congr 1
      omega
    rw [hg]
    cases hl : l'.get? 0 with
    | none => simp [adjustRel]
    | some b =>
      have hfalse := hnc b hl
      simp [hfalse, adjustRel]
  | succ k ih =>
    have hidx : c.length + (k + 1) = (c.length + k) + 1 := by omega
    rw [hidx]
    unfold adjustRel
    have hg : (c ++ l').get? (c.length + k + 1) = l'.get? (k + 1) := by
      rw [List.get?_append_right (by omega)]
      congr 1
      omega
    rw [hg]
    cases hl : l'.get? (k + 1) with
    | none =>
      show c.length + k + 1 = c.length + (k + 1)
      omega
    | some b =>
      show (if contByte b = true then adjustRel (c ++ l') (c.length + k) else c.length + k + 1)
          = c.length + (if contByte b = true then adjustRel l' k else k + 1)
      by_cases hb : contByte b
      · rw [if_pos hb, if_pos hb, ih]
      · rw [if_neg hb, if_neg hb]
        omega

theorem validUtf8_char_append (b : Nat) (r m : List Nat)
    (h0 : leadLen b ≠ 0) (hlen : leadLen b - 1 ≤ r.length)
    (hcont : (r.take (leadLen b - 1)).all contByte = true)
    (hm : validUtf8 m = true) :
    validUtf8 (b :: (r.take (leadLen b - 1) ++ m)) = true := by
  rw [validUtf8_cons_iff]
  have hlt : (r.take (leadLen b - 1)).length = leadLen b - 1 :=
    List.length_take_of_le hlen
  have htake : (r.take (leadLen b - 1) ++ m).take (leadLen b - 1)
      = r.take (leadLen b - 1) :=
    List.take_left' hlt
  have hdrop : (r.take (leadLen b - 1) ++ m).drop (leadLen b - 1) = m :=
    List.drop_left' hlt
  rw [htake, hdrop]
  refine ⟨h0, ?_, hcont, hm⟩
  rw [List.length_append, hlt]
  omega

/-- The back-off loop, started anywhere strictly inside a well-formed UTF-8
byte list, moves at most 3 bytes backwards and lands on a character
boundary: both the prefix and the suffix it cuts are themselves well-formed
UTF-8. -/
theorem adjustRel_spec (N : Nat) :
    ∀ (l : List Nat), l.length ≤ N → validUtf8 l = true →
    ∀ t, t < l.length →
      adjustRel l t ≤ t ∧ t ≤ adjustRel l t + 3
        ∧ validUtf8 (l.take (adjustRel l t)) = true
        ∧ validUtf8 (l.drop (adjustRel l t)) = true := by
  induction N with
  | zero =>
    intro l hl _ t ht
    omega
  | succ N ih =>
    intro l hl hv t ht
    cases l with
    | nil => simp at ht
    | cons b rest =>
      have hv0 := hv
      rw [validUtf8_cons_iff] at hv
      obtain ⟨hlead, hlen, hcont, hrest⟩ := hv
      by_cases hcase : t ≤ leadLen b - 1
      · have hzero : adjustRel (b :: rest) t = 0 := by
          apply adjustRel_eq_zero (b :: rest) (leadLen b - 1) _ t hcase
          intro j hj1 hjn
          have hjr : j - 1 < rest.length := by omega
          have hjtake : j - 1 < (rest.take (leadLen b - 1)).length := by
            rw [List.length_take]
            omega
          refine ⟨rest.get ⟨j - 1, hjr⟩, ?_, ?_⟩
          · have hcons : (b :: rest).get? j = rest.get? (j - 1) := by
              cases j with
              | zero => omega
              | succ j0 => simp
            rw [hcons, List.get?_eq_get hjr]
          · have hgt : (rest.take (leadLen b - 1)).get ⟨j - 1, hjtake⟩
                = rest.get ⟨j - 1, hjr⟩ := by
              simp [List.get_take']
            have hall := List.all_eq_true.mp hcont
            have hmem := List.get_mem (rest.take (leadLen b - 1)) (j - 1) hjtake
            have := hall _ hmem
            rwa [hgt] at this
        rw [hzero]
        refine ⟨by omega, ?_, by simp [validUtf8, validUtf8Go], by simpa using hv0⟩
        have := leadLen_le b
        omega
      · -- past the first character: shift into the suffix
        push_neg at hcase
        have hdecomp : b :: rest
            = (b :: rest.take (leadLen b - 1)) ++ rest.drop (leadLen b - 1) := by
          simp
        have hclen : (b :: rest.take (leadLen b - 1)).length = leadLen b - 1 + 1 := by
          simp [List.length_take]
          omega
        have hnc : ∀ b', (rest.drop (leadLen b - 1)).get? 0 = some b'
            → contByte b' = false := by
          intro b' hb'
          cases hl'' : rest.drop (leadLen b - 1) with
          | nil => rw [hl''] at hb'; simp at hb'
          | cons x xs =>
            rw [hl''] at hb'
            simp only [List.get?] at hb'
            have hx : x = b' := by injection hb'
            rw [hl''] at hrest
            rw [validUtf8_cons_iff] at hrest
            rw [← hx]
            exact contByte_false_of_leadLen x hrest.1
        have hk : t = (b :: rest.take (leadLen b - 1)).length + (t - (leadLen b - 1 + 1)) := by
          rw [hclen]
          omega
        have hshift := adjustRel_append (b :: rest.take (leadLen b - 1))
          (rest.drop (leadLen b - 1)) (by simp) hnc (t - (leadLen b - 1 + 1))
        have hlen' : (rest.drop (leadLen b - 1)).length ≤ N := by
          rw [List.length_drop]
          simp only [List.length_cons] at hl
          omega
        have hkin : t - (leadLen b - 1 + 1) < (rest.drop (leadLen b - 1)).length := by
          rw [List.length_drop]
          simp only [List.length_cons] at ht
          omega
        obtain ⟨ha1, ha2, ha3, ha4⟩ := ih (rest.drop (leadLen b - 1)) hlen' hrest
          (t - (leadLen b - 1 + 1)) hkin
        rw [hdecomp]
        rw [hk, hshift]
        rw [List.take_append, List.drop_append]
        refine ⟨by omega, by omega, ?_, ha4⟩
        rw [List.cons_append]
        exact validUtf8_char_append b rest _ hlead hlen hcont ha3

theorem foldChunksGo_nil (fuel limit : Nat) : foldChunksGo fuel [] limit = [] := by
  cases fuel <;> rfl

theorem foldChunksGo_cons (fuel : Nat) (b : Nat) (rest : List Nat) (limit : Nat) :
    foldChunksGo (fuel + 1) (b :: rest) limit
      = (b :: rest).take (adjustRel (b :: rest) (min limit (b :: rest).length))
        :: foldChunksGo fuel
            ((b :: rest).drop (adjustRel (b :: rest) (min limit (b :: rest).length))) 74 := rfl

/-- Invariant of the chunking loop on well-formed UTF-8 input with enough
fuel: the chunks concatenate back to the input, every chunk is well-formed
UTF-8, the first chunk holds at most `limit` bytes and every later chunk at
most 74. -/
theorem foldChunksGo_spec (fuel : Nat) :
    ∀ (l : List Nat) (limit : Nat), validUtf8 l = true → l.length ≤ fuel → 4 ≤ limit →
      (foldChunksGo fuel l limit).flatten = l
        ∧ (∀ c ∈ foldChunksGo fuel l limit, validUtf8 c = true)
        ∧ (match foldChunksGo fuel l limit with
           | [] => True
           | c :: rest => c.length ≤ limit ∧ ∀ c' ∈ rest, c'.length ≤ 74) := by
  induction fuel with
  | zero =>
    intro l limit _ hl _
    have hnil : l = [] := List.length_eq_zero.mp (by omega)
    subst hnil
    simp [foldChunksGo]
  | succ fuel ih =>
    intro l limit hv hl hlim
    cases l with
    | nil => simp [foldChunksGo]
    | cons b rest =>
      rw [foldChunksGo_cons]
      by_cases hfit : (b :: rest).length ≤ limit
      · have hmin : min limit (b :: rest).length = (b :: rest).length := by omega
        rw [hmin, adjustRel_of_length_le _ _ (le_refl _)]
        rw [List.take_length, List.drop_length, foldChunksGo_nil]
        refine ⟨by simp, ?_, ?_⟩
        · intro c hc
          simp only [List.mem_singleton] at hc
          rw [hc]
          exact hv
        · exact ⟨hfit, by simp⟩
      · push_neg at hfit
        have hmin : min limit (b :: rest).length = limit := by omega
        rw [hmin]
        obtain ⟨he1, he2, he3, he4⟩ :=
          adjustRel_spec (b :: rest).length (b :: rest) (le_refl _) hv limit hfit
        have hepos : 1 ≤ adjustRel (b :: rest) limit := by omega
        have hlen' : ((b :: rest).drop (adjustRel (b :: rest) limit)).length ≤ fuel := by
          rw [List.length_drop]
          simp only [List.length_cons] at hl ⊢
          omega
        obtain ⟨hj, hvv, hsz⟩ := ih ((b :: rest).drop (adjustRel (b :: rest) limit)) 74
          he4 hlen' (by omega)
        refine ⟨?_, ?_, ?_⟩
        · rw [List.flatten_cons, hj, List.take_append_drop]
        · intro c hc
          simp only [List.mem_cons] at hc
          rcases hc with hc | hc
          · rw [hc]; exact he3
          · exact hvv c hc
        · refine ⟨?_, ?_⟩
          · rw [List.length_take]
            simp only [List.length_cons]
            omega
          · intro c' hc'
            rcases hmatch : foldChunksGo fuel ((b :: rest).drop (adjustRel (b :: rest) limit)) 74
              with _ | ⟨c0, cs0⟩
            · rw [hmatch] at hc'
              simp at hc'
            · rw [hmatch] at hc' hsz
              simp only at hsz
              simp only [List.mem_cons] at hc'
              rcases hc' with hc' | hc'
              · rw [hc']; exact hsz.1
              · exact hsz.2 c' hc'

theorem unescapeTextL_cons_ne (c : Char) (l : List Char) (hc : c ≠ '\\') :
    unescapeTextL (c :: l) = c :: unescapeTextL l := by
  cases l with
  | nil => simp [unescapeTextL, hc]
  | cons x xs => simp [unescapeTextL, hc]

theorem unescapeTextL_esc (c : Char) (l : List Char) :
    unescapeTextL ('\\' :: c :: l) = (if c = 'n' then '\n' else c) :: unescapeTextL l := rfl

theorem escapeTextL_cons (c : Char) (l : List Char) :
    escapeTextL (c :: l) = escCharSpec c ++ escapeTextL l := by
  unfold escapeTextL escCharSpec
  by_cases hs : c = '\\' ∨ c = ';' ∨ c = ','
  · rw [escapeSpecialsL, if_pos hs]
    have hbs : ¬('\\' = '\n') := by decide
    have hcn : ¬(c = '\n') := by
      rcases hs with h | h | h <;> rw [h] <;> decide
    rw [escapeNewlinesL, if_neg hbs, escapeNewlinesL, if_neg hcn]
    simp [hs]
  · rw [escapeSpecialsL, if_neg hs]
    by_cases hn : c = '\n'
    · rw [escapeNewlinesL, if_pos hn]
      simp [hs, hn]
    · rw [escapeNewlinesL, if_neg hn]
      simp [hs, hn]

theorem unescape_escape (l : List Char) :
    unescapeTextL (escapeTextL l) = l := by
  induction l with
  | nil => rfl
  | cons c rest ih =>
    rw [escapeTextL_cons]
    unfold escCharSpec
    by_cases hs : c = '\\' ∨ c = ';' ∨ c = ','
    · rw [if_pos hs]
      have hcn : ¬(c = 'n') := by
        rcases hs with h | h | h <;> rw [h] <;> decide
      simp only [List.cons_append, List.nil_append, unescapeTextL_esc, if_neg hcn, ih]
    · rw [if_neg hs]
      by_cases hn : c = '\n'
      · rw [if_pos hn]
        simp only [List.cons_append, List.nil_append, unescapeTextL_esc, ih, hn]
        simp
      · rw [if_neg hn]
        have hbs : c ≠ '\\' := by
          intro h
          exact hs (Or.inl h)
        simp only [List.cons_append, List.nil_append]
        rw [unescapeTextL_cons_ne c _ hbs, ih]

/-- C3: the codec's text escaping prefixes each backslash, semicolon and
comma with a backslash and replaces each newline with the two-character
sequence backslash-`n`, applying backslash escaping before newline
substitution (`escapeTextL` is the newline pass composed after the
backslash pass, and acts on each character by `escCharSpec`); reversing
these escape rules recovers the original string, so the escaping is
injective and invertible. -/
theorem escapeText_roundtrip (s : String) :
    (escapeText s).data = escapeNewlinesL (escapeSpecialsL s.data)
      ∧ (∀ c l, escapeTextL (c :: l) = escCharSpec c ++ escapeTextL l)
      ∧ (∀ l, unescapeTextL (escapeTextL l) = l)
      ∧ unescapeTextL (escapeText s).data = s.data
      ∧ Function.Injective escapeTextL := by
  refine ⟨rfl, escapeTextL_cons, unescape_escape, unescape_escape s.data, ?_⟩
  intro a b hab
  have ha := unescape_escape a
  have hb := unescape_escape b
  rw [← ha, ← hb, hab]

/-- C7: `createEvent` raises an error exactly when the PUT response is not
ok and not status 201 and not status 204; the raised error carries the
response's status code and status text in its message; when the server
answers 409 the message contains "409"; and a network-level rejection of
the `fetch` itself propagates unchanged. -/
theorem createEvent_error_spec (r : HttpResponse) :
    ((∃ err, createEventResult (.success r) = .error err)
        ↔ (respOk r = false ∧ r.status ≠ 201 ∧ r.status ≠ 204))
      ∧ (respOk r = false → r.status ≠ 201 → r.status ≠ 204 →
          createEventResult (.success r)
            = .error (.httpError (createEventMessage r.status r.statusText)))
      ∧ (r.status = 409 →
          "409".data <:+: (createEventMessage r.status r.statusText).data)
      ∧ (∀ e, createEventResult (.networkFailure e) = .error (.networkError e)) := by
  have hred : createEventResult (.success r)
      = if ¬(respOk r = true) ∧ r.status ≠ 201 ∧ r.status ≠ 204 then
          .error (.httpError (createEventMessage r.status r.statusText))
        else .ok () := rfl
  refine ⟨?_, ?_, ?_, fun e => rfl⟩
  · rw [hred]
    constructor
    · rintro ⟨err, herr⟩
      by_cases hc : ¬(respOk r = true) ∧ r.status ≠ 201 ∧ r.status ≠ 204
      · simp only [Bool.not_eq_true] at hc
        exact hc
      · rw [if_neg hc] at herr
        exact absurd herr (by simp)
    · intro hc
      rw [if_pos (by simp only [Bool.not_eq_true]; exact hc)]
      exact ⟨_, rfl⟩
  · intro h1 h2 h3
    rw [hred]
    rw [if_pos (by simp only [Bool.not_eq_true]; exact ⟨h1, h2, h3⟩)]
  · intro h409
    rw [h409]
    unfold createEventMessage
    refine ⟨"Failed to create event: ".data, (" " ++ r.statusText).data, ?_⟩
    have h : toString (409 : Nat) = "409" := rfl
    rw [h]
    simp

/-- C8: `checkConnection` never throws (it is total into `Bool`); it
returns `true` exactly when the probe produced a response with a
successful 2xx status — 207 Multi-Status included — and returns `false`,
rather than propagating an exception, on a network-level rejection. -/
theorem checkConnection_spec (outcome : FetchOutcome) :
    (checkConnection outcome = true
        ↔ ∃ r, outcome = .success r ∧ 200 ≤ r.status ∧ r.status ≤ 299)
      ∧ (∀ e, checkConnection (.networkFailure e) = false)
      ∧ (∀ st, checkConnection (.success ⟨207, st⟩) = true) := by
  refine ⟨?_, fun e => rfl, fun st => by simp [checkConnection, respOk]⟩
  cases outcome with
  | success r =>
    simp only [checkConnection, respOk, decide_eq_true_eq]
    constructor
    · intro h
      exact ⟨r, rfl, h.1, h.2⟩
    · rintro ⟨r', hr', h1, h2⟩
      injection hr' with h
      subst h
      exact ⟨h1, h2⟩
  | networkFailure e =>
    simp only [checkConnection]
    constructor
    · intro h
      exact absurd h (by simp)
    · rintro ⟨r', hr', _, _⟩
      exact absurd hr' (by simp)

/-- C10: every extraction entry point resolves rather than rejecting: a
failure of the injected script (a rejection of the remote execution, or a
null/undefined result) makes `extractDateSuggestions` and
`extractDescriptionSuggestions` resolve with the empty list and
`extractSelectionSiblingText` resolve with null, never propagating the
exception (the three handlers are total functions of the outcome). -/
theorem extraction_never_rejects (e : String) :
    extractDateSuggestionsResult (.error e) = []
      ∧ extractDescriptionSuggestionsResult (.error e) = []
      ∧ extractSelectionSiblingTextResult (.error e) = none
      ∧ extractDateSuggestionsResult (.ok none) = []
      ∧ extractDescriptionSuggestionsResult (.ok none) = []
      ∧ extractSelectionSiblingTextResult (.ok none) = none := by
  exact ⟨rfl, rfl, rfl, rfl, rfl, rfl⟩

/-- C7 witness: a 409 Conflict response makes `createEvent` throw, and the
thrown error's message contains "409". -/
theorem createEvent_error_spec_witness :
    respOk ⟨409, "Conflict"⟩ = false
      ∧ createEventResult (.success ⟨409, "Conflict"⟩)
          = .error (.httpError "Failed to create event: 409 Conflict")
      ∧ "409".data <:+: "Failed to create event: 409 Conflict".data := by
  have h := createEvent_error_spec ⟨409, "Conflict"⟩
  refine ⟨by decide, ?_, ?_⟩
  · have h2 := h.2.1 (by decide) (by decide) (by decide)
    rw [h2]
    rw [show createEventMessage (409 : Nat) "Conflict"
      = "Failed to create event: 409 Conflict" from rfl]
  · have h3 := h.2.2.1 rfl
    rw [show createEventMessage (409 : Nat) "Conflict"
      = "Failed to create event: 409 Conflict" from rfl] at h3
    exact h3

theorem dedupCapGo_eq (l : List DateTimeSuggestion) :
    ∀ (seen : List String) (uniq : List DateTimeSuggestion), uniq.length < 5 →
      dedupCapGo l seen uniq = (uniq ++ firstOccurrences l seen).take 5 := by
  induction l with
  | nil =>
    intro seen uniq h
    rw [dedupCapGo, firstOccurrences, List.append_nil]
    exact (List.take_of_length_le (by omega)).symm
  | cons s rest ih =>
    intro seen uniq h
    rw [dedupCapGo, firstOccurrences]
    by_cases hseen : seen.contains (dedupKey s)
    · rw [if_pos hseen, if_pos hseen]
      exact ih seen uniq h
    · rw [if_neg hseen, if_neg hseen]
      by_cases hfull : 5 ≤ uniq.length + 1
      · rw [if_pos hfull]
        have h5 : (uniq ++ [s]).length = 5 := by
          rw [List.length_append]
          simp only [List.length_singleton]
          omega
        have hassoc : uniq ++ s :: firstOccurrences rest (dedupKey s :: seen)
            = (uniq ++ [s]) ++ firstOccurrences rest (dedupKey s :: seen) := by
          simp
        rw [hassoc, List.take_left' h5]
      · rw [if_neg hfull]
        rw [ih (dedupKey s :: seen) (uniq ++ [s]) (by rw [List.length_append]; simp; omega)]
        congr 1
        simp

theorem firstOccurrences_keys (l : List DateTimeSuggestion) :
    ∀ seen : List String,
      ((firstOccurrences l seen).map dedupKey).Nodup
        ∧ ∀ k ∈ seen, k ∉ (firstOccurrences l seen).map dedupKey := by
  induction l with
  | nil =>
    intro seen
    simp [firstOccurrences]
  | cons s rest ih =>
    intro seen
    rw [firstOccurrences]
    by_cases hseen : seen.contains (dedupKey s)
    · rw [if_pos hseen]
      exact ih seen
    · rw [if_neg hseen]
      obtain ⟨hnd, hnotin⟩ := ih (dedupKey s :: seen)
      constructor
      · rw [List.map_cons, List.nodup_cons]
        exact ⟨hnotin (dedupKey s) (by simp), hnd⟩
      · intro k hk
        rw [List.map_cons, List.mem_cons]
        rintro (hkey | hmem)
        · rw [hkey] at hk
          exact hseen (List.contains_iff_exists_mem_beq.mpr ⟨dedupKey s, hk, by simp⟩)
        · exact hnotin k (by simp [hk]) hmem

theorem firstOccurrences_sublist (l : List DateTimeSuggestion) :
    ∀ seen : List String, List.Sublist (firstOccurrences l seen) l := by
  induction l with
  | nil => intro seen; rw [firstOccurrences]
  | cons s rest ih =>
    intro seen
    rw [firstOccurrences]
    by_cases hseen : seen.contains (dedupKey s)
    · rw [if_pos hseen]
      exact (ih seen).cons s
    · rw [if_neg hseen]
      exact (ih (dedupKey s :: seen)).cons₂ s

/-- C5: the suggestion list returned by the extraction script is the
first-occurrence-per-key subsequence of the candidate sequence (key
`start + "|" + end`, empty string for a missing end), truncated to at most
5 entries: duplicates are removed with the first occurrence winning, the
pass/insertion order is preserved (a sublist of the input, never a sort),
and the result has at most 5 entries. -/
theorem dedup_spec (l : List DateTimeSuggestion) :
    dedupCap l = (firstOccurrences l []).take 5
      ∧ (dedupCap l).length ≤ 5
      ∧ ((dedupCap l).map dedupKey).Nodup
      ∧ List.Sublist (dedupCap l) l := by
  have heq : dedupCap l = (firstOccurrences l []).take 5 := by
    unfold dedupCap
    have := dedupCapGo_eq l [] [] (by simp)
    simpa using this
  refine ⟨heq, ?_, ?_, ?_⟩
  · rw [heq]
    exact le_trans (List.length_take_le 5 _) (le_refl 5)
  · rw [heq]
    have hs : List.Sublist (((firstOccurrences l []).take 5).map dedupKey)
        ((firstOccurrences l []).map dedupKey) :=
      (List.take_sublist 5 _).map dedupKey
    exact (firstOccurrences_keys l []).1.sublist hs
  · rw [heq]
    exact (List.take_sublist 5 _).trans (firstOccurrences_sublist l [])

set_option maxRecDepth 8000 in
/-- C6 counterexample: reading "finds the last whitespace" as the
whitespace class (as the claim states), the claim fails on a 600-character
text whose only whitespace is a tab at position 480: that tab is the last
whitespace of the cut fragment and its position exceeds 50% of
`maxLength`, yet the code — whose `lastIndexOf(" ")` looks only for the
space character — does not cut there (it cuts at 500). -/
theorem truncate_whitespace_counterexample :
    lastWhitespaceIdx
        ((jsTrim (List.replicate 480 'a' ++ '\t' :: List.replicate 119 'b')).take 500)
        = some 480
      ∧ 2 * 480 > 500
      ∧ truncateText (List.replicate 480 'a' ++ '\t' :: List.replicate 119 'b') 500
          ≠ ((jsTrim (List.replicate 480 'a' ++ '\t' :: List.replicate 119 'b')).take 500).take 480
            ++ ['…'] := by
  refine ⟨by decide, by decide, by decide⟩

set_option maxRecDepth 8000 in
/-- C6 (amended): for every text and `maxLength`, `truncateText` first
trims; a trimmed text of at most `maxLength` characters is returned
unchanged; otherwise the text is cut at `maxLength`, the cut moves back to
the position of the last *space character* (U+0020 — the amendment: the
code's `lastIndexOf(" ")` finds the last space, not the last arbitrary
whitespace) whenever that position exceeds 50% of `maxLength`, and a
single ellipsis character is appended; in particular a 600-character
string with no whitespace truncates to exactly 500 characters plus an
ellipsis, and a 600-character string whose only late space sits at
position 480 truncates at that space plus an ellipsis. -/
theorem truncateText_spec (text : List Char) (maxLength : Nat) :
    ((jsTrim text).length ≤ maxLength → truncateText text maxLength = jsTrim text)
      ∧ (maxLength < (jsTrim text).length →
          lastSpaceIdx ((jsTrim text).take maxLength) = none →
          truncateText text maxLength = (jsTrim text).take maxLength ++ ['…'])
      ∧ (∀ ls, maxLength < (jsTrim text).length →
          lastSpaceIdx ((jsTrim text).take maxLength) = some ls →
          (2 * ls > maxLength →
            truncateText text maxLength
              = ((jsTrim text).take maxLength).take ls ++ ['…'])
          ∧ (2 * ls ≤ maxLength →
            truncateText text maxLength = (jsTrim text).take maxLength ++ ['…']))
      ∧ truncateText (List.replicate 600 'a') 500 = List.replicate 500 'a' ++ ['…']
      ∧ truncateText (List.replicate 480 'a' ++ ' ' :: List.replicate 119 'b') 500
          = List.replicate 480 'a' ++ ['…'] := by
  refine ⟨?_, ?_, ?_, by decide, by decide⟩
  · intro hle
    unfold truncateText
    rw [if_pos hle]
  · intro hgt hnone
    unfold truncateText
    rw [if_neg (by omega), hnone]
  · intro ls hgt hsome
    constructor
    · intro hhalf
      unfold truncateText
      rw [if_neg (by omega), hsome]
      show (if 2 * ls > maxLength then ((jsTrim text).take maxLength).take ls ++ ['…']
          else (jsTrim text).take maxLength ++ ['…']) = _
      rw [if_pos hhalf]
    · intro hhalf
      unfold truncateText
      rw [if_neg (by omega), hsome]
      show (if 2 * ls > maxLength then ((jsTrim text).take maxLength).take ls ++ ['…']
          else (jsTrim text).take maxLength ++ ['…']) = _
      rw [if_neg (by omega)]

set_option maxRecDepth 8000 in
/-- C6 witness: the trimmed-fits case and the cut-at-space case of the
amended claim hold at concrete inputs. -/
theorem truncateText_spec_witness :
    (jsTrim ['a', 'b']).length ≤ 500 ∧ truncateText ['a', 'b'] 500 = jsTrim ['a', 'b'] := by
  exact ⟨by decide, (truncateText_spec ['a', 'b'] 500).1 (by decide)⟩

theorem truncateText_length_aux (text : List Char) (maxLength : Nat) :
    (truncateText text maxLength).length ≤ maxLength + 1 := by
  unfold truncateText
  by_cases hle : (jsTrim text).length ≤ maxLength
  · rw [if_pos hle]
    omega
  · rw [if_neg hle]
    have hcut : ((jsTrim text).take maxLength).length ≤ maxLength := by
      rw [List.length_take]
      omega
    cases hls : lastSpaceIdx ((jsTrim text).take maxLength) with
    | none =>
      rw [List.length_append]
      simp only [List.length_singleton]
      omega
    | some ls =>
      show (if 2 * ls > maxLength then ((jsTrim text).take maxLength).take ls ++ ['…']
          else (jsTrim text).take maxLength ++ ['…']).length ≤ maxLength + 1
      by_cases hhalf : 2 * ls > maxLength
      · rw [if_pos hhalf, List.length_append]
        have : (((jsTrim text).take maxLength).take ls).length ≤ maxLength := by
          rw [List.length_take]
          omega
        simp only [List.length_singleton]
        omega
      · rw [if_neg hhalf, List.length_append]
        simp only [List.length_singleton]
        omega

/-- C9: for every input string and positive `maxLength`, the truncated
result holds at most `maxLength + 1` characters — the single appended
ellipsis is the only character that can sit beyond the cut — and when the
result ends with the ellipsis, its length excluding that ellipsis is at
most `maxLength`. -/
theorem truncateText_length_bound (text : List Char) (maxLength : Nat)
    (hpos : 0 < maxLength) :
    (truncateText text maxLength).length ≤ maxLength + 1
      ∧ ((truncateText text maxLength).getLast? = some '…' →
          (truncateText text maxLength).length - 1 ≤ maxLength) := by
  have h := truncateText_length_aux text maxLength
  exact ⟨h, fun _ => by omega⟩

set_option maxRecDepth 8000 in
/-- C9 witness: at a 600-character spaceless input and `maxLength = 500`
the bound holds (the result has exactly 501 characters and ends with the
ellipsis). -/
theorem truncateText_length_bound_witness :
    0 < 500
      ∧ (truncateText (List.replicate 600 'a') 500).length ≤ 501
      ∧ ((truncateText (List.replicate 600 'a') 500).getLast? = some '…' →
          (truncateText (List.replicate 600 'a') 500).length - 1 ≤ 500) := by
  have h := truncateText_length_bound (List.replicate 600 'a') 500 (by decide)
  exact ⟨by decide, h.1, h.2⟩

/-- C2: on any content line (well-formed UTF-8 bytes), folding leaves a
line of at most 75 bytes untouched; otherwise it splits into chunks — at
most 75 bytes for the first and at most 74 bytes for each continuation —
and every split boundary backs off so it never falls inside a multi-byte
UTF-8 sequence (each chunk is itself well-formed UTF-8, which is exactly
what makes the decode/re-encode of each chunk lossless); the chunks are
joined by a line break plus exactly one space; consequently concatenating
the chunks (i.e. stripping each continuation's leading space) reconstructs
the original line exactly. -/
theorem foldLine_spec (bytes : List Nat) (hv : validUtf8 bytes = true) :
    (bytes.length ≤ 75 → foldChunks bytes = [bytes])
      ∧ (∀ c ∈ foldChunks bytes, validUtf8 c = true)
      ∧ (match foldChunks bytes with
         | [] => True
         | c :: rest => c.length ≤ 75 ∧ ∀ c' ∈ rest, c'.length ≤ 74)
      ∧ (foldChunks bytes).flatten = bytes
      ∧ foldLineBytes bytes = List.intercalate [10, 32] (foldChunks bytes) := by
  by_cases h75 : bytes.length ≤ 75
  · have hsingle : foldChunks bytes = [bytes] := by
      unfold foldChunks
      rw [if_pos h75]
    refine ⟨fun _ => hsingle, ?_, ?_, ?_, rfl⟩
    · intro c hc
      rw [hsingle] at hc
      simp only [List.mem_singleton] at hc
      rw [hc]
      exact hv
    · rw [hsingle]
      exact ⟨h75, by simp⟩
    · rw [hsingle]
      simp
  · have hgo : foldChunks bytes = foldChunksGo bytes.length bytes 75 := by
      unfold foldChunks
      rw [if_neg h75]
    obtain ⟨hj, hvv, hsz⟩ :=
      foldChunksGo_spec bytes.length bytes 75 hv (le_refl _) (by omega)
    refine ⟨fun h => absurd h h75, ?_, ?_, ?_, rfl⟩
    · rw [hgo]; exact hvv
    · rw [hgo]; exact hsz
    · rw [hgo]; exact hj

set_option maxRecDepth 8000 in
/-- C2 witness: a 78-byte line whose 75th position falls inside the
two-byte UTF-8 character `0xc3 0xa9` is split at a backed-off boundary and
concatenates back to the original bytes. -/
theorem foldLine_spec_witness :
    validUtf8 (List.replicate 74 97 ++ [195, 169, 99, 100]) = true
      ∧ (foldChunks (List.replicate 74 97 ++ [195, 169, 99, 100])).flatten
          = List.replicate 74 97 ++ [195, 169, 99, 100] := by
  exact ⟨by decide, (foldLine_spec _ (by decide)).2.2.2.1⟩

/-- On dates whose year fits four digits, the slice-and-replace digits are
the plain `YYYYMMDD` rendering. -/
theorem isoDateDigits_of_le (v : Nat × Nat × Nat) (h : v.1 ≤ 9999) :
    isoDateDigits v = renderYMD8 v := by
  rcases v with ⟨a, b, c⟩
  unfold isoDateDigits
  exact if_pos h

/-- C1 (amended): for an all-day event whose `start` and `end` are
`YYYY-MM-DD` calendar dates, with the end date not 9999-12-31, the encoder
renders `DTSTART;VALUE=DATE:` followed by the literal start date's digits
(the dashes removed, no timezone conversion) and `DTEND;VALUE=DATE:`
followed by the calendar day after the stored end date, with month and
year rollover (`calNextDay`).  The exclusion of an end date of 9999-12-31
is forced: there the calendar successor is 10000-01-01, `toISOString`
switches to the expanded-year form, and the code emits
`DTEND;VALUE=DATE:+01000001` instead of any next-day digits (see the
counterexample). -/
theorem allday_encoding (e : CalendarEvent) (uid dtStamp : String)
    (y m d : Nat)
    (hall : e.allDay = true)
    (hs10 : e.start.length = 10) (hsp : (parseYMD e.start).isSome = true)
    (he10 : e.«end».length = 10) (hep : parseYMD e.«end» = some (y, m, d))
    (hv : ValidYMD y m d) (htop : ¬(y = 9999 ∧ m = 12 ∧ d = 31)) :
    ∃ ls, generateIcsLines e uid dtStamp = some ls
      ∧ ls.get? 6 = some ("DTSTART;VALUE=DATE:" ++ removeDashes e.start)
      ∧ ls.get? 7 = some ("DTEND;VALUE=DATE:" ++ renderYMD8 (calNextDay (y, m, d))) := by
  have hds : dtStartProp e = some ("DTSTART;VALUE=DATE:" ++ removeDashes e.start) := by
    unfold dtStartProp
    rw [hall]
    simp only [if_true]
    unfold formatDateOnly
    rw [if_pos hs10]
    rfl
  have hnext : civilFromDays (daysFromCivil y m d + 1) = calNextDay (y, m, d) := by
    rw [daysFromCivil_calNextDay y m d hv]
    exact civilFromDays_daysFromCivil _ _ _ (calNextDay_valid y m d hv)
  have hy9999 : y ≤ 9999 := parseYMDL_year_le e.«end».data y m d hep
  have hnextle : (calNextDay (y, m, d)).1 ≤ 9999 := by
    obtain ⟨h1, h2, h3, h4⟩ := hv
    unfold calNextDay
    by_cases hdlt : d < monthLen y m
    · simp only [hdlt, if_true]
      exact hy9999
    · by_cases hmlt : m < 12
      · simp only [hdlt, if_false, hmlt, if_true]
        exact hy9999
      · simp only [hdlt, if_false, hmlt]
        have hm12 : m = 12 := by omega
        subst hm12
        have hml : monthLen y 12 = 31 := by
          unfold monthLen; norm_num
        have hne : ¬(y = 9999) := fun hy => htop ⟨hy, rfl, by omega⟩
        show y + 1 ≤ 9999
        omega
  have hde : dtEndProp e = some ("DTEND;VALUE=DATE:" ++ renderYMD8 (calNextDay (y, m, d))) := by
    unfold dtEndProp
    rw [hall]
    simp only [if_true]
    unfold formatDateOnlyExclusive
    rw [if_pos he10, hep]
    simp only [Option.map_some']
    rw [hnext, isoDateDigits_of_le (calNextDay (y, m, d)) hnextle]
  unfold generateIcsLines
  rw [hds, hde]
  exact ⟨_, rfl, rfl, rfl⟩

/-- C1 witness: the event `{start := "2024-01-01", end := "2024-01-01",
allDay := true}` yields the lines `DTSTART;VALUE=DATE:20240101` and
`DTEND;VALUE=DATE:20240102`. -/
theorem allday_encoding_witness :
    ∃ ls, generateIcsLines
        { title := "Event", start := "2024-01-01", «end» := "2024-01-01", allDay := true }
        "uid-1" "20240101T000000Z" = some ls
      ∧ ls.get? 6 = some "DTSTART;VALUE=DATE:20240101"
      ∧ ls.get? 7 = some "DTEND;VALUE=DATE:20240102" := by
  obtain ⟨ls, h1, h2, h3⟩ := allday_encoding
    { title := "Event", start := "2024-01-01", «end» := "2024-01-01", allDay := true }
    "uid-1" "20240101T000000Z" 2024 1 1 rfl (by decide) (by decide) (by decide)
    (by decide) (by decide) (by decide)
  refine ⟨ls, h1, ?_, ?_⟩
  · rw [h2]
    rw [show "DTSTART;VALUE=DATE:" ++ removeDashes "2024-01-01"
      = "DTSTART;VALUE=DATE:20240101" by decide]
  · rw [h3]
    rw [show "DTEND;VALUE=DATE:" ++ renderYMD8 (calNextDay (2024, 1, 1))
      = "DTEND;VALUE=DATE:20240102" by decide]

/-- C1 counterexample: at an end date of 9999-12-31 the claim fails.  The
calendar day after the stored end is 10000-01-01, whose `toISOString`
rendering is the ECMA-262 expanded-year form `+010000-01-01…`;
`slice(0, 10)` keeps only the sign, the six year digits and the month, and
the dash removal leaves `+01000001`.  The encoder therefore emits the line
`DTEND;VALUE=DATE:+01000001`, and `+01000001` is not the `YYYYMMDD`
rendering of any calendar date — in particular not of the calendar day
after the stored end date. -/
theorem allday_encoding_counterexample :
    ∃ ls, generateIcsLines
        { title := "Event", start := "9999-12-31", «end» := "9999-12-31", allDay := true }
        "uid-1" "20240101T000000Z" = some ls
      ∧ ls.get? 7 = some "DTEND;VALUE=DATE:+01000001"
      ∧ calNextDay (9999, 12, 31) = (10000, 1, 1)
      ∧ ∀ v : Nat × Nat × Nat, "+01000001" ≠ renderYMD8 v := by
  have hcal : calNextDay (9999, 12, 31) = (10000, 1, 1) := by decide
  have hnext : civilFromDays (daysFromCivil 9999 12 31 + 1) = (10000, 1, 1) := by
    rw [daysFromCivil_calNextDay 9999 12 31 (by decide), hcal]
    exact civilFromDays_daysFromCivil 10000 1 1 (by decide)
  have hf : formatDateOnlyExclusive "9999-12-31" = some "+01000001" := by
    unfold formatDateOnlyExclusive
    rw [if_pos (by decide : ("9999-12-31" : String).length = 10)]
    rw [show parseYMD "9999-12-31" = some (9999, 12, 31) from by decide]
    simp only [Option.map_some']
    rw [hnext]
    decide
  have hds : dtStartProp
      { title := "Event", start := "9999-12-31", «end» := "9999-12-31", allDay := true }
      = some "DTSTART;VALUE=DATE:99991231" := by
    show (formatDateOnly "9999-12-31").map (fun v => "DTSTART;VALUE=DATE:" ++ v)
      = some "DTSTART;VALUE=DATE:99991231"
    decide
  have hde : dtEndProp
      { title := "Event", start := "9999-12-31", «end» := "9999-12-31", allDay := true }
      = some "DTEND;VALUE=DATE:+01000001" := by
    show (formatDateOnlyExclusive "9999-12-31").map (fun v => "DTEND;VALUE=DATE:" ++ v)
      = some "DTEND;VALUE=DATE:+01000001"
    rw [hf]
    simp only [Option.map_some']
    rw [show "DTEND;VALUE=DATE:" ++ "+01000001" = "DTEND;VALUE=DATE:+01000001" from by decide]
  unfold generateIcsLines
  rw [hds, hde]
  refine ⟨_, rfl, rfl, hcal, ?_⟩
  intro v h
  have h8 : (renderYMD8 v).length = 8 := by
    rcases v with ⟨a, b, c⟩
    rfl
  have h9 : ("+01000001" : String).length = 9 := by decide
  rw [← h] at h8
  omega

/-- C4 (amended): for a timed event value that parses as an ISO-8601
instant whose UTC equivalent lies within years 0-9999 (hypotheses `h0` and
`hrange`), there are valid UTC fields — with a 4-digit year — denoting the
very same instant, and the encoder's `formatDate` renders exactly those
fields in the basic form `YYYYMMDDTHHMMSSZ` (sixteen characters: fourteen
digits, `T` and `Z`): the value is converted to UTC, so a start given in a
non-UTC offset is rendered as its UTC-equivalent instant.  The restriction
is forced: on valid instants whose UTC equivalent falls before year 0 or
beyond year 9999, `toISOString` switches to signed expanded-year forms and
the code emits strings like `0000011231T230000Z` and
`+0100000101T013000Z` instead (see the counterexample). -/
theorem timed_utc_encoding (s : String) (x : JsInstant)
    (hp : parseInstant s = some x)
    (h0 : 0 ≤ toTimelineSec x)
    (hrange : toTimelineSec x < (yearDays 10000 : Int) * 86400) :
    (∃ u : UTCFields, ValidUTC u ∧ u.y ≤ 9999 ∧ (utcToSec u : Int) = toTimelineSec x)
      ∧ ∀ u : UTCFields, ValidUTC u → (utcToSec u : Int) = toTimelineSec x →
          formatDate s = some (renderBasic u)
            ∧ isBasicUtcShape (renderBasic u) = true := by
  constructor
  · obtain ⟨hvalid, hsec, hbound⟩ := utcFieldsOfSec_inv (toTimelineSec x).toNat
    refine ⟨utcFieldsOfSec (toTimelineSec x).toNat, hvalid, ?_, ?_⟩
    · apply hbound
      have hcast : ((toTimelineSec x).toNat : Int) = toTimelineSec x :=
        Int.toNat_of_nonneg h0
      omega
    · rw [hsec]
      exact Int.toNat_of_nonneg h0
  · intro u hu heq
    have hy9999 : u.y ≤ 9999 := by
      have hnat : utcToSec u < yearDays 10000 * 86400 := by
        have hr := hrange
        rw [← heq] at hr
        exact_mod_cast hr
      have hinv := (utcFieldsOfSec_inv (utcToSec u)).2.2 hnat
      rwa [utcFieldsOfSec_utcToSec u hu] at hinv
    constructor
    · unfold formatDate
      rw [hp]
      simp only [Option.some_bind]
      rw [← heq]
      rw [if_neg (by omega : ¬(((utcToSec u : Nat) : Int) < 0))]
      rw [Int.toNat_natCast, utcFieldsOfSec_utcToSec u hu]
      rw [if_pos hy9999]
    · exact renderBasic_shape u

/-- C4 witness: the instant `2024-06-01T12:30:00+02:00`, given in a
non-UTC offset, is rendered as its UTC equivalent `20240601T103000Z`. -/
theorem timed_utc_encoding_witness :
    parseInstant "2024-06-01T12:30:00+02:00" = some ⟨2024, 6, 1, 12, 30, 0, 120⟩
      ∧ formatDate "2024-06-01T12:30:00+02:00" = some "20240601T103000Z"
      ∧ isBasicUtcShape "20240601T103000Z" = true := by
  have h := timed_utc_encoding "2024-06-01T12:30:00+02:00"
    ⟨2024, 6, 1, 12, 30, 0, 120⟩
    (by decide) (by decide) (by decide)
  have h2 := h.2 ⟨2024, 6, 1, 10, 30, 0⟩ (by decide) (by decide)
  have hren : renderBasic ⟨2024, 6, 1, 10, 30, 0⟩ = "20240601T103000Z" := by decide
  refine ⟨by decide, ?_, ?_⟩
  · rw [h2.1, hren]
  · rw [← hren]
    exact h2.2

/-- On an instant whose UTC equivalent has a year beyond 9999 (but within
the `Date` range), `formatDate` yields the sign-carrying expanded-year
rendering `+YYYYYYMMDDTHHMMSSZ`. -/
theorem formatDate_expanded (s : String) (x : JsInstant) (u : UTCFields)
    (hp : parseInstant s = some x) (hu : ValidUTC u)
    (heq : toTimelineSec x = ((utcToSec u : Nat) : Int))
    (hy : ¬(u.y ≤ 9999)) (hbound : ((utcToSec u : Nat) : Int) ≤ 100719528 * 86400) :
    formatDate s = some ⟨'+' :: (pad6l u.y ++ pad2l u.m ++ pad2l u.d ++ 'T'
      :: (pad2l u.hh ++ pad2l u.mm ++ pad2l u.ss ++ ['Z']))⟩ := by
  unfold formatDate
  rw [hp]
  simp only [Option.some_bind]
  rw [heq]
  rw [if_neg (by omega : ¬(((utcToSec u : Nat) : Int) < 0))]
  rw [Int.toNat_natCast, utcFieldsOfSec_utcToSec u hu]
  rw [if_neg hy, if_pos hbound]

/-- C4 counterexample: valid ISO-8601 instants whose UTC equivalent leaves
the years 0-9999 are not rendered as `YYYYMMDDTHHMMSSZ`.  The instant
`0000-01-01T00:00:00+01:00` denotes 23:00:00 on the last day of year -1;
`toISOString` gives `-000001-12-31T23:00:00.000Z` and the global dash
removal also deletes the sign, so the code renders `0000011231T230000Z`
(eighteen characters).  The instant `9999-12-31T23:30:00-02:00` denotes
10000-01-01T01:30:00Z; `toISOString` gives the expanded form
`+010000-01-01T01:30:00.000Z` and the code renders `+0100000101T013000Z`
(nineteen characters, sign retained).  Neither output has the claimed
sixteen-character basic shape. -/
theorem timed_utc_encoding_counterexample :
    formatDate "0000-01-01T00:00:00+01:00" = some "0000011231T230000Z"
      ∧ isBasicUtcShape "0000011231T230000Z" = false
      ∧ formatDate "9999-12-31T23:30:00-02:00" = some "+0100000101T013000Z"
      ∧ isBasicUtcShape "+0100000101T013000Z" = false := by
  refine ⟨by decide, by decide, ?_, by decide⟩
  rw [formatDate_expanded "9999-12-31T23:30:00-02:00" ⟨9999, 12, 31, 23, 30, 0, -120⟩
    ⟨10000, 1, 1, 1, 30, 0⟩ (by decide) (by decide) (by decide) (by decide) (by decide)]
  decide

/-- C3 witness: the escape/unescape round trip at a concrete string
containing a backslash, a semicolon, a comma and a newline. -/
theorem escapeText_roundtrip_witness :
    unescapeTextL (escapeText "a,b;c\\d\ne").data = "a,b;c\\d\ne".data
      ∧ (escapeText "a,b;c\\d\ne").data = "a\\,b\\;c\\\\d\\ne".data := by
  exact ⟨(escapeText_roundtrip "a,b;c\\d\ne").2.2.2.1, by decide⟩

/-- C5 witness: seven candidates of which two are exact start/end
duplicates yield five entries, in first-seen order, duplicates removed. -/
theorem dedup_spec_witness :
    dedupCap [⟨"s1", none, "a"⟩, ⟨"s1", none, "b"⟩, ⟨"s2", none, "c"⟩,
        ⟨"s3", none, "d"⟩, ⟨"s3", none, "e"⟩, ⟨"s4", none, "f"⟩, ⟨"s5", none, "g"⟩]
      = [⟨"s1", none, "a"⟩, ⟨"s2", none, "c"⟩, ⟨"s3", none, "d"⟩,
        ⟨"s4", none, "f"⟩, ⟨"s5", none, "g"⟩]
      ∧ (dedupCap [⟨"s1", none, "a"⟩, ⟨"s1", none, "b"⟩, ⟨"s2", none, "c"⟩,
          ⟨"s3", none, "d"⟩, ⟨"s3", none, "e"⟩, ⟨"s4", none, "f"⟩,
          ⟨"s5", none, "g"⟩]).length ≤ 5 := by
  refine ⟨by decide, ?_⟩
  exact (dedup_spec [⟨"s1", none, "a"⟩, ⟨"s1", none, "b"⟩, ⟨"s2", none, "c"⟩,
    ⟨"s3", none, "d"⟩, ⟨"s3", none, "e"⟩, ⟨"s4", none, "f"⟩, ⟨"s5", none, "g"⟩]).2.1

/-- C8 witness: a concrete rejected probe yields `false`, a 207
Multi-Status response yields `true`. -/
theorem checkConnection_spec_witness :
    checkConnection (.networkFailure "ECONNREFUSED") = false
      ∧ checkConnection (.success ⟨207, "Multi-Status"⟩) = true := by
  exact ⟨(checkConnection_spec (.networkFailure "ECONNREFUSED")).2.1 "ECONNREFUSED",
    (checkConnection_spec (.success ⟨207, "Multi-Status"⟩)).2.2 "Multi-Status"⟩

end SendToCaldav

